import Mathlib

/-!
Verification of `mytrie.py`, a library of generic tries over "string-like"
sequences of tokens, together with the generic Knuth-Morris-Pratt substring
matcher it ships.

Shallow embedding conventions:
* a string-like key is modelled as a `List α` of its tokens, whose null
  (identity) element is `[]`;
* a trie node (`[dict-of-children, is_member]` in the source) is modelled by
  the mutual inductive `Node` / `NodeList`, where `NodeList` is the
  association list of children (Python dict with unique keys; insertion
  appends a fresh binding at the end, mirroring how a new key enters the
  dict);
* raising `KeyError` in a query is modelled by returning `none`, and the
  lazily generated sequences are modelled by the lists of their elements in
  generation order.
-/

set_option maxHeartbeats 1000000
set_option linter.unusedVariables false
set_option linter.unusedSectionVars false

namespace Mytrie

mutual

inductive Node (α : Type) : Type where
  | mk : NodeList α → Bool → Node α

inductive NodeList (α : Type) : Type where
  | nil : NodeList α
  | cons : α → Node α → NodeList α → NodeList α

end

variable {α : Type} [DecidableEq α]

/-- First component of a node: its children (`node[0]` in the source). -/
def Node.children : Node α → NodeList α
  | .mk ch _ => ch

/-- Second component of a node: its membership flag (`node[1]`). -/
def Node.terminal : Node α → Bool
  | .mk _ b => b

/-- A fresh empty node, `[{}, False]` in `TrieSet.__init__` / `TrieSet.add`. -/
def emptyNode : Node α := .mk .nil false

/-- Dictionary lookup `node[0][el]`, returning `none` on `KeyError`. -/
def lookupCh : NodeList α → α → Option (Node α)
  | .nil, _ => none
  | .cons e n rest, el => if e = el then some n else lookupCh rest el

/-- Dictionary update `node[0][el] = n'` for a key `el` already present:
replaces the value of the first binding of `el`. -/
def updCh : NodeList α → α → Node α → NodeList α
  | .nil, _, _ => .nil
  | .cons e n rest, el, n' => if e = el then .cons e n' rest else .cons e n (updCh rest el n')

/-- Dictionary insertion `node[0][el] = n'` for a key `el` not yet present:
appends a fresh binding. -/
def snocCh : NodeList α → α → Node α → NodeList α
  | .nil, el, n' => .cons el n' .nil
  | .cons e n rest, el, n' => .cons e n (snocCh rest el n')

/-- The keys of a children dictionary, in order (`node[0].iterkeys()`). -/
def childKeys : NodeList α → List α
  | .nil => []
  | .cons e _ rest => e :: childKeys rest

/-- `TrieBase.__contains__`: walk the key's tokens from the given node;
a failed child lookup returns `False`, otherwise the final node's flag. -/
def containsKey : Node α → List α → Bool
  | n, [] => n.terminal
  | n, el :: rest =>
    match lookupCh n.children el with
    | some child => containsKey child rest
    | none => false

/-- `TrieBase.__nodeOf`: walk the key's tokens from the given node, returning
the node reached, or `none` if some child lookup fails. -/
def nodeOf : Node α → List α → Option (Node α)
  | n, [] => some n
  | n, el :: rest =>
    match lookupCh n.children el with
    | some child => nodeOf child rest
    | none => none

/-- `TrieBase.has_extension_of`: `nodeOf` succeeded. -/
def hasExtensionOf (root : Node α) (pre : List α) : Bool :=
  (nodeOf root pre).isSome

/-- `TrieBase.__pathTo`: the nodes yielded while walking the key's tokens.
The generator yields the current node before each lookup and the final node
after the loop; on a failed lookup it has yielded the nodes up to and
including the last reachable one and then raises (the raise itself is
modelled by the list simply ending there, as both callers swallow it). -/
def pathTo : Node α → List α → List (Node α)
  | n, [] => [n]
  | n, el :: rest =>
    match lookupCh n.children el with
    | some child => n :: pathTo child rest
    | none => [n]

/-- `TrieSet.add` after the string-likeness check: walk the key's tokens,
reusing the child node when the lookup succeeds and appending a fresh
`[{}, False]` node on `KeyError`, finally setting the membership flag. -/
def addKey : Node α → List α → Node α
  | .mk ch _, [] => .mk ch true
  | .mk ch b, el :: rest =>
    match lookupCh ch el with
    | some child => .mk (updCh ch el (addKey child rest)) b
    | none => .mk (snocCh ch el (addKey emptyNode rest)) b

/-- `TrieSet(contents)`: fold `add` over the given keys starting from the
root `[{}, False]`. -/
def buildT (keys : List (List α)) : Node α :=
  keys.foldl addKey emptyNode

mutual

/-- `TrieBase.__generateKeys` (= `__iter__`): yield the accumulated prefix at
each node whose flag is set, then recurse into the children in order. -/
def keysOf : Node α → List α → List (List α)
  | .mk ch b, pre => (if b then [pre] else []) ++ keysOfList ch pre

/-- The `for el, el_node in cur_node[0].iteritems()` part of
`__generateKeys`. -/
def keysOfList : NodeList α → List α → List (List α)
  | .nil, _ => []
  | .cons el n rest, pre => keysOf n (pre ++ [el]) ++ keysOfList rest pre

end

mutual

/-- Number of set membership flags in a subtree, root included: the quantity
accumulated by the explicit work-list loop of `TrieBase.__len__` for each
node it visits. -/
def cntNode : Node α → Nat
  | .mk ch b => (if b then 1 else 0) + cntList ch

/-- Sum of `cntNode` over a children list. -/
def cntList : NodeList α → Nat
  | .nil => 0
  | .cons _ n rest => cntNode n + cntList rest

end

/-- `TrieBase.__len__`: its work-list starts from the root's children only
(`self._root[0].itervalues()`), so the root's own flag is never counted; the
loop then visits every node below the root once, summing the flags. -/
def trieLen (root : Node α) : Nat :=
  cntList root.children

/-- `TrieBase.successors`: resolve the prefix's node (`KeyError` as `none`),
then yield `prefix + el` for each child key. -/
def succrs (root : Node α) (pre : List α) : Option (List (List α)) :=
  (nodeOf root pre).map (fun n => (childKeys n.children).map (fun el => pre ++ [el]))

mutual

/-- `TrieBase.__generateSubNodes`: yield the start node with the accumulated
suffix, then recurse into the children in order. -/
def subNodes : Node α → List α → List (Node α × List α)
  | .mk ch b, pre => (.mk ch b, pre) :: subNodesList ch pre

/-- The child-iteration part of `__generateSubNodes`. -/
def subNodesList : NodeList α → List α → List (Node α × List α)
  | .nil, _ => []
  | .cons el n rest, pre => subNodes n (pre ++ [el]) ++ subNodesList rest pre

end

/-- `TrieBase.suffixes`: resolve the prefix's node (`KeyError` as `none`),
enumerate its subtree with accumulated suffixes starting from the null
element, and keep a suffix when `members_only` is false or the node's flag
is set. -/
def sfxs (root : Node α) (pre : List α) (membersOnly : Bool) : Option (List (List α)) :=
  (nodeOf root pre).map (fun n =>
    (subNodes n []).filterMap (fun q => if !membersOnly || q.1.terminal then some q.2 else none))

/-- `TrieBase.maximal_suffix`: resolve the prefix's node (`KeyError` as
`none`), then keep the first subtree suffix of a flagged node that is
strictly longer than the best so far, starting from the null element. -/
def maxSfx (root : Node α) (pre : List α) : Option (List α) :=
  (nodeOf root pre).map (fun n =>
    (subNodes n []).foldl (fun acc q => if q.1.terminal && acc.length < q.2.length then q.2 else acc) [])

/-- `TrieBase.extensions`: `prefix + suff` for each generated suffix, the
`KeyError` of `suffixes` propagating. -/
def extns (root : Node α) (pre : List α) (membersOnly : Bool) : Option (List (List α)) :=
  (sfxs root pre membersOnly).map (List.map (fun s => pre ++ s))

/-- `TrieBase.prefixes`: walk `__pathTo(string)` with indices, yielding
`string[:i]` at each flagged node; a `KeyError` partway simply ends the
generation (`except KeyError: pass`). -/
def prefixesOf (root : Node α) (s : List α) : List (List α) :=
  (List.enum (pathTo root s)).filterMap (fun p => if p.2.terminal then some (s.take p.1) else none)

/-- `TrieBase.maximal_prefix`: remember the index of the last flagged node
along `__pathTo(string)` (the `mi` variable), then return `string[:mi]`,
with `none` for the final `KeyError('No key is a prefix of ...')`. -/
def maximalPref (root : Node α) (s : List α) : Option (List α) :=
  ((List.enum (pathTo root s)).foldl
      (fun acc p => if p.2.terminal then some p.1 else acc) none).map
    (fun i => s.take i)

/-- Specification-side helper: the indices along `__pathTo(string)` at
which a flagged (terminal) node sits — exactly the indices whose take
`prefixes` yields and among which `maximal_prefix` keeps the last. -/
def termIdxs (root : Node α) (s : List α) : List Nat :=
  (List.enum (pathTo root s)).filterMap (fun p => if p.2.terminal then some p.1 else none)

/-- A candidate value offered to `TrieSet.add`. Python is dynamically typed,
so the caller may pass any object; only the values of a string-like type
with the trie's null element (condensed to their token lists) can actually
be stored, and every other value (a tuple, an int, a string-like value over
a different null element, ...) is condensed to the single constructor
`bad`, since `add` rejects all of them alike. -/
inductive Val (α : Type) : Type where
  | str : List α → Val α
  | bad : Val α

/-- `isStringLike(key, null_element)` as used by `TrieSet.add`: true exactly
on the values of a string-like type with the trie's null element (the
hashability / containment / concatenation-identity checks of the source are
what carves out `Val.str`). -/
def isStrLike : Val α → Bool
  | .str _ => true
  | .bad => false

/-- The token list of a candidate value (only meaningful when it is
string-like). -/
def tokensOf : Val α → List α
  | .str k => k
  | .bad => []

/-- `TrieSet.add` including its contract check: if `isStringLike` fails, the
`TypeError` is raised (second component `true`) before the tree is touched;
otherwise the walk-and-insert loop runs. -/
def addChecked (root : Node α) (v : Val α) : Node α × Bool :=
  if isStrLike v then (addKey root (tokensOf v), false) else (root, true)

/-- `p` is a (not necessarily proper) leading segment of `k`. -/
def pfx (p k : List α) : Prop := k.take p.length = p

instance (p k : List α) : Decidable (pfx p k) := by
  unfold pfx; infer_instance

mutual

/-- Well-formedness of a node: its children association list binds each
token at most once (automatic for a Python dict), recursively. Every tree
reachable through the module's interface satisfies this. -/
def wfN : Node α → Bool
  | .mk ch _ => wfL ch

/-- Well-formedness of a children list: each key is absent from the rest of
the list and each child is well-formed. -/
def wfL : NodeList α → Bool
  | .nil => true
  | .cons el n rest => (lookupCh rest el).isNone && wfN n && wfL rest

end

/-!
The Knuth-Morris-Pratt matcher (`KnuthMorrisPratt` in the source).

The shift table holds positive integers (it is initialised with 1s and only
ever stores values obtained by adding table entries), which we record in the
entry type `ℕ+` so that both while loops terminate on every input of the
Lean functions; `matchLen` is an `Int` since the search loop drives it to -1
when no border survives. Out-of-range table reads (`getD ... 1`) never occur
on the runs the source performs.
-/

/-- The inner `while` of the table construction:
`while shift <= pos and pattern[pos] != pattern[pos-shift]:
    shift += shifts[pos-shift]`. -/
def tblLoop (p : List α) (tbl : List ℕ+) (pos : Nat) (shift : ℕ+) : ℕ+ :=
  if h : shift.val ≤ pos ∧ p[pos]? ≠ p[pos - shift.val]? then
    tblLoop p tbl pos (shift + tbl.getD (pos - shift.val) 1)
  else shift
termination_by pos + 1 - shift.val
decreasing_by
  have h1 : 1 ≤ (tbl.getD (pos - shift.val) 1).val := (tbl.getD (pos - shift.val) 1).2
  have h2 : (shift + tbl.getD (pos - shift.val) 1).val =
      shift.val + (tbl.getD (pos - shift.val) 1).val := rfl
  omega

/-- The table construction after `pos` iterations of the
`for pos in xrange(len(pattern))` loop: the current `shifts` list (initially
`[1] * (len(pattern) + 1)`) together with the persistent `shift` variable
(initially 1); each iteration runs the inner while and stores the result at
`pos + 1`. -/
def kmpShiftsAux (p : List α) : Nat → List ℕ+ × ℕ+
  | 0 => (List.replicate (p.length + 1) 1, 1)
  | pos + 1 =>
    let r := kmpShiftsAux p pos
    let shift := tblLoop p r.1 pos r.2
    (r.1.set (pos + 1) shift, shift)

/-- The completed shift table of `KnuthMorrisPratt`. -/
def kmpShifts (p : List α) : List ℕ+ :=
  (kmpShiftsAux p p.length).1

/-- The inner `while` of the search:
`while matchLen == len(pattern) or matchLen >= 0 and pattern[matchLen] != c:
    startPos += shifts[matchLen]; matchLen -= shifts[matchLen]`. -/
def srchLoop (p : List α) (tbl : List ℕ+) (c : α) (startPos : Nat) (matchLen : Int) :
    Nat × Int :=
  if h : matchLen = (p.length : Int) ∨ (0 ≤ matchLen ∧ p[matchLen.toNat]? ≠ some c) then
    srchLoop p tbl c (startPos + (tbl.getD matchLen.toNat 1).val)
      (matchLen - ((tbl.getD matchLen.toNat 1).val : Int))
  else (startPos, matchLen)
termination_by (matchLen + 1).toNat
decreasing_by
  have h1 : 1 ≤ (tbl.getD matchLen.toNat 1).val := (tbl.getD matchLen.toNat 1).2
  have h0 : 0 ≤ matchLen := by
    rcases h with h | h
    · rw [h]; exact Int.ofNat_nonneg _
    · exact h.1
  omega

/-- The `for c in text` search loop, carrying `startPos` and `matchLen` and
emitting `startPos` whenever the incremented `matchLen` reaches the full
pattern length. -/
def srchRun (p : List α) (tbl : List ℕ+) : List α → Nat → Int → List Nat
  | [], _, _ => []
  | c :: rest, startPos, matchLen =>
    let q := srchLoop p tbl c startPos matchLen
    (if q.2 + 1 = (p.length : Int) then [q.1] else []) ++ srchRun p tbl rest q.1 (q.2 + 1)

/-- `KnuthMorrisPratt(text, pattern)`: the list of yielded starting
positions, in order. -/
def kmpMatches (text pat : List α) : List Nat :=
  srchRun pat (kmpShifts pat) text 0 0

/-- `StringLike.__contains__`: the identity element is contained by fiat;
any other needle is contained iff the matcher yields at least one match. -/
def slContains (self other : List α) : Bool :=
  if other = [] then true else !(kmpMatches self other).isEmpty

/-!
Specification-side notions used to state what KMP computes: suffix
segments, proper borders, and occurrence positions.
-/

/-- The last `l` elements of `w` (for `l ≤ w.length`). -/
def endSeg (w : List α) (l : Nat) : List α := w.drop (w.length - l)

/-- `l` is the length of a proper border of `w`: a strict initial segment
of `w` that is also a final segment. -/
def IsBd (w : List α) (l : Nat) : Prop := l < w.length ∧ w.take l = endSeg w l

instance {w : List α} {l : Nat} : Decidable (IsBd w l) := by
  unfold IsBd endSeg; infer_instance

/-- The length of the longest proper border of `w` (0 when `w` has no
border, in particular when `w` is empty). -/
def bd (w : List α) : Nat := Nat.findGreatest (IsBd w) (w.length - 1)

/-- Reference descent along the border chain: starting from candidate match
length `l`, the largest chain element that can be extended by the token `c`,
or -1 when none can. This is the quantity both inner whiles compute. -/
def descSpec (p : List α) (c : α) (l : Nat) : Int :=
  if l < p.length ∧ p[l]? = some c then (l : Int)
  else if l = 0 then -1
  else descSpec p c (bd (p.take l))
termination_by l
decreasing_by
  have h1 : bd (p.take l) ≤ (p.take l).length - 1 := Nat.findGreatest_le _
  have h2 : (p.take l).length = min l p.length := List.length_take l p
  omega

/-- `l` is an element of the border chain headed by `j` for the pattern `p`:
either `j` itself or a proper border of `p.take j`. These are exactly the
candidate lengths the inner whiles descend through. -/
def satBd (p : List α) (j l : Nat) : Prop := l = j ∨ IsBd (p.take j) l

/-- `l` is a length of a prefix of `p` that is also a suffix of the first
`k` tokens of `t`: the candidate match lengths after `k` tokens of text. -/
def pss (t p : List α) (k l : Nat) : Prop :=
  l ≤ p.length ∧ l ≤ k ∧ p.take l = endSeg (t.take k) l

instance {t p : List α} {k l : Nat} : Decidable (pss t p k l) := by
  unfold pss endSeg; infer_instance

/-- The longest prefix of `p` that is a suffix of the first `k` tokens of
`t`: the value of `matchLen` after the search has consumed `k` tokens. -/
def longMatch (t p : List α) (k : Nat) : Nat :=
  Nat.findGreatest (pss t p k) (min k p.length)

/-- The pattern occurs in the text at 0-based position `i`. -/
def occAt (t p : List α) (i : Nat) : Prop :=
  i + p.length ≤ t.length ∧ (t.drop i).take p.length = p

instance {t p : List α} {i : Nat} : Decidable (occAt t p i) := by
  unfold occAt; infer_instance

/-- All occurrence positions of `p` in `t`, in increasing order. -/
def occList (t p : List α) : List Nat :=
  (List.range (t.length + 1)).filter (fun i => decide (occAt t p i))

/-!
Comparison-counting instrumentation of the matcher, used to state its
complexity. Each function mirrors its uninstrumented counterpart exactly
and additionally counts the evaluations of a token-equality comparison
(`pattern[pos] != pattern[pos-shift]` resp. `pattern[matchLen] != c`),
honouring Python's short-circuit evaluation of `and` / `or`.
-/

/-- Comparisons performed by one evaluation of the search loop condition:
zero when `matchLen == len(pattern)` short-circuits the `or`, or when
`matchLen >= 0` short-circuits the `and`. -/
def cmpCost (p : List α) (ml : Int) : Nat :=
  if ml = (p.length : Int) then 0 else if 0 ≤ ml then 1 else 0

/-- `tblLoop` with a comparison count (the condition compares tokens exactly
when `shift <= pos` holds). -/
def tblLoopC (p : List α) (tbl : List ℕ+) (pos : Nat) (shift : ℕ+) : ℕ+ × Nat :=
  if h : shift.val ≤ pos ∧ p[pos]? ≠ p[pos - shift.val]? then
    let r := tblLoopC p tbl pos (shift + tbl.getD (pos - shift.val) 1)
    (r.1, r.2 + 1)
  else (shift, if shift.val ≤ pos then 1 else 0)
termination_by pos + 1 - shift.val
decreasing_by
  have h1 : 1 ≤ (tbl.getD (pos - shift.val) 1).val := (tbl.getD (pos - shift.val) 1).2
  have h2 : (shift + tbl.getD (pos - shift.val) 1).val =
      shift.val + (tbl.getD (pos - shift.val) 1).val := rfl
  omega

/-- `kmpShiftsAux` with the accumulated comparison count. -/
def kmpShiftsAuxC (p : List α) : Nat → List ℕ+ × ℕ+ × Nat
  | 0 => (List.replicate (p.length + 1) 1, 1, 0)
  | pos + 1 =>
    let r := kmpShiftsAuxC p pos
    let q := tblLoopC p r.1 pos r.2.1
    (r.1.set (pos + 1) q.1, q.1, r.2.2 + q.2)

/-- `srchLoop` with a comparison count. -/
def srchLoopC (p : List α) (tbl : List ℕ+) (c : α) (startPos : Nat) (matchLen : Int) :
    Nat × Int × Nat :=
  if h : matchLen = (p.length : Int) ∨ (0 ≤ matchLen ∧ p[matchLen.toNat]? ≠ some c) then
    let r := srchLoopC p tbl c (startPos + (tbl.getD matchLen.toNat 1).val)
      (matchLen - ((tbl.getD matchLen.toNat 1).val : Int))
    (r.1, r.2.1, r.2.2 + cmpCost p matchLen)
  else (startPos, matchLen, cmpCost p matchLen)
termination_by (matchLen + 1).toNat
decreasing_by
  have h1 : 1 ≤ (tbl.getD matchLen.toNat 1).val := (tbl.getD matchLen.toNat 1).2
  have h0 : 0 ≤ matchLen := by
    rcases h with h | h
    · rw [h]; exact Int.ofNat_nonneg _
    · exact h.1
  omega

/-- `srchRun` with the accumulated comparison count. -/
def srchRunC (p : List α) (tbl : List ℕ+) : List α → Nat → Int → List Nat × Nat
  | [], _, _ => ([], 0)
  | c :: rest, startPos, matchLen =>
    let q := srchLoopC p tbl c startPos matchLen
    let r := srchRunC p tbl rest q.1 (q.2.1 + 1)
    ((if q.2.1 + 1 = (p.length : Int) then [q.1] else []) ++ r.1, q.2.2 + r.2)

/-- Total token-equality comparisons of a full run of the matcher: table
construction plus search. -/
def kmpCmpCount (text pat : List α) : Nat :=
  (kmpShiftsAuxC pat pat.length).2.2 + (srchRunC pat (kmpShifts pat) text 0 0).2

/-! ### Children dictionary lemmas -/

@[simp] theorem children_mk (ch : NodeList α) (b : Bool) : (Node.mk ch b).children = ch := rfl

@[simp] theorem terminal_mk (ch : NodeList α) (b : Bool) : (Node.mk ch b).terminal = b := rfl

theorem lookupCh_updCh_self (el : α) (n' : Node α) :
    ∀ (ch : NodeList α) (c : Node α), lookupCh ch el = some c →
      lookupCh (updCh ch el n') el = some n'
  | .nil, c, h => by simp [lookupCh] at h
  | .cons e n rest, c, h => by
      by_cases he : e = el
      · simp [updCh, he, lookupCh]
      · simp only [lookupCh, if_neg he] at h
        simp only [updCh, if_neg he, lookupCh, if_neg he]
        exact lookupCh_updCh_self el n' rest c h

theorem lookupCh_updCh_ne (el x : α) (n' : Node α) (hx : x ≠ el) :
    ∀ ch : NodeList α, lookupCh (updCh ch el n') x = lookupCh ch x
  | .nil => rfl
  | .cons e n rest => by
      by_cases he : e = el
      · subst he
        have hex : ¬ e = x := fun h => hx h.symm
        simp [updCh, lookupCh, hex]
      · simp only [updCh, if_neg he, lookupCh]
        rw [lookupCh_updCh_ne el x n' hx rest]

theorem updCh_self_eq (el : α) :
    ∀ (ch : NodeList α) (c : Node α), lookupCh ch el = some c → updCh ch el c = ch
  | .nil, c, h => by simp [lookupCh] at h
  | .cons e n rest, c, h => by
      by_cases he : e = el
      · subst he
        have hn : n = c := by simpa [lookupCh] using h
        subst hn
        simp [updCh]
      · simp only [lookupCh, if_neg he] at h
        simp only [updCh, if_neg he]
        rw [updCh_self_eq el rest c h]

theorem lookupCh_snocCh_self (el : α) (n' : Node α) :
    ∀ ch : NodeList α, lookupCh ch el = none → lookupCh (snocCh ch el n') el = some n'
  | .nil, _ => by simp [snocCh, lookupCh]
  | .cons e n rest, h => by
      by_cases he : e = el
      · simp [lookupCh, he] at h
      · simp only [lookupCh, if_neg he] at h
        simp only [snocCh, lookupCh, if_neg he]
        exact lookupCh_snocCh_self el n' rest h

theorem lookupCh_snocCh_ne (el x : α) (n' : Node α) (hx : x ≠ el) :
    ∀ ch : NodeList α, lookupCh (snocCh ch el n') x = lookupCh ch x
  | .nil => by
      have hex : ¬ el = x := fun h => hx h.symm
      simp [snocCh, lookupCh, hex]
  | .cons e n rest => by
      simp only [snocCh, lookupCh]
      rw [lookupCh_snocCh_ne el x n' hx rest]

theorem lookupCh_none_iff (x : α) :
    ∀ ch : NodeList α, lookupCh ch x = none ↔ x ∉ childKeys ch
  | .nil => by simp [lookupCh, childKeys]
  | .cons e n rest => by
      by_cases he : e = x
      · simp [lookupCh, he, childKeys]
      · simp only [lookupCh, if_neg he, childKeys, List.mem_cons]
        rw [lookupCh_none_iff x rest]
        constructor
        · intro h
          push_neg
          exact ⟨fun hxe => he hxe.symm, h⟩
        · intro h
          push_neg at h
          exact h.2

theorem childKeys_updCh (el : α) (n' : Node α) :
    ∀ ch : NodeList α, childKeys (updCh ch el n') = childKeys ch
  | .nil => rfl
  | .cons e n rest => by
      by_cases he : e = el
      · simp [updCh, he, childKeys]
      · simp only [updCh, if_neg he, childKeys]
        rw [childKeys_updCh el n' rest]

theorem childKeys_snocCh (el : α) (n' : Node α) :
    ∀ ch : NodeList α, childKeys (snocCh ch el n') = childKeys ch ++ [el]
  | .nil => rfl
  | .cons e n rest => by
      simp only [snocCh, childKeys, List.cons_append]
      rw [childKeys_snocCh el n' rest]

theorem contains_emptyNode : ∀ k : List α, containsKey emptyNode k = false
  | [] => rfl
  | e :: r => by simp [containsKey, emptyNode, lookupCh]

theorem nodeOf_emptyNode_isSome :
    ∀ k : List α, (nodeOf (emptyNode (α := α)) k).isSome = decide (k = [])
  | [] => rfl
  | e :: r => by simp [nodeOf, emptyNode, lookupCh]

/-! ### Leading-segment (`pfx`) lemmas -/

@[simp] theorem pfx_nil_left (k : List α) : pfx [] k := by simp [pfx]

theorem pfx_cons (e el : α) (r kr : List α) :
    pfx (e :: r) (el :: kr) ↔ e = el ∧ pfx r kr := by
  simp only [pfx, List.length_cons, List.take_succ_cons, List.cons.injEq]
  exact ⟨fun h => ⟨h.1.symm, h.2⟩, fun h => ⟨h.1.symm, h.2⟩⟩

theorem not_pfx_cons_nil (e : α) (r : List α) : ¬ pfx (e :: r) [] := by
  simp [pfx]

theorem pfx_take (k : List α) (i : Nat) : pfx (k.take i) k := by
  simp [pfx, List.length_take, List.take_take]

theorem pfx_iff_eq_take (p k : List α) : pfx p k ↔ p = k.take p.length := by
  constructor
  · intro h; exact h.symm
  · intro h; rw [pfx, ← h]

theorem pfx_length_le {p k : List α} (h : pfx p k) : p.length ≤ k.length := by
  have := congrArg List.length h
  simp only [List.length_take] at this
  omega

/-! ### Insertion lemmas -/

theorem containsKey_addKey :
    ∀ (k : List α) (n : Node α) (k' : List α),
      containsKey (addKey n k) k' = (containsKey n k' || decide (k' = k))
  | [], .mk ch b, k' => by
      cases k' with
      | nil => simp [addKey, containsKey]
      | cons e r => simp [addKey, containsKey]
  | el :: kr, .mk ch b, k' => by
      cases hl : lookupCh ch el with
      | some child =>
          cases k' with
          | nil => simp [addKey, hl, containsKey]
          | cons e r =>
              by_cases he : e = el
              · subst he
                have hs := lookupCh_updCh_self e (addKey child kr) ch child hl
                simp only [addKey, hl, containsKey, children_mk, hs,
                  containsKey_addKey kr child r]
                by_cases hr : r = kr
                · simp [hr]
                · simp [hr]
              · have hne := lookupCh_updCh_ne el e (addKey child kr) he ch
                simp only [addKey, hl, containsKey, children_mk, hne]
                have : ¬ (e :: r = el :: kr) := by simp [he]
                simp [this]
      | none =>
          cases k' with
          | nil => simp [addKey, hl, containsKey]
          | cons e r =>
              by_cases he : e = el
              · subst he
                have hs := lookupCh_snocCh_self e (addKey emptyNode kr) ch hl
                simp only [addKey, hl, containsKey, children_mk, hs, hl,
                  containsKey_addKey kr emptyNode r, contains_emptyNode]
                by_cases hr : r = kr
                · simp [hr]
                · simp [hr]
              · have hne := lookupCh_snocCh_ne el e (addKey emptyNode kr) he ch
                simp only [addKey, hl, containsKey, children_mk, hne]
                have : ¬ (e :: r = el :: kr) := by simp [he]
                simp [this]

theorem nodeOf_addKey_isSome :
    ∀ (k : List α) (n : Node α) (p : List α),
      (nodeOf (addKey n k) p).isSome = ((nodeOf n p).isSome || decide (pfx p k))
  | [], .mk ch b, p => by
      cases p with
      | nil => simp [addKey, nodeOf]
      | cons e r => simp [addKey, nodeOf, not_pfx_cons_nil]
  | el :: kr, .mk ch b, p => by
      cases hl : lookupCh ch el with
      | some child =>
          cases p with
          | nil => simp [addKey, hl, nodeOf]
          | cons e r =>
              by_cases he : e = el
              · subst he
                have hs := lookupCh_updCh_self e (addKey child kr) ch child hl
                simp only [addKey, hl, nodeOf, children_mk, hs,
                  nodeOf_addKey_isSome kr child r]
                have : pfx (e :: r) (e :: kr) ↔ pfx r kr := by
                  rw [pfx_cons]; simp
                by_cases hr : pfx r kr
                · simp [hr, this]
                · simp [hr, this]
              · have hne := lookupCh_updCh_ne el e (addKey child kr) he ch
                simp only [addKey, hl, nodeOf, children_mk, hne]
                have : ¬ pfx (e :: r) (el :: kr) := by
                  rw [pfx_cons]; exact fun h => he h.1
                simp [this]
      | none =>
          cases p with
          | nil => simp [addKey, hl, nodeOf]
          | cons e r =>
              by_cases he : e = el
              · subst he
                have hs := lookupCh_snocCh_self e (addKey emptyNode kr) ch hl
                simp only [addKey, hl, nodeOf, children_mk, hs,
                  nodeOf_addKey_isSome kr emptyNode r, nodeOf_emptyNode_isSome]
                have hiff : pfx (e :: r) (e :: kr) ↔ pfx r kr := by
                  rw [pfx_cons]; simp
                by_cases hr : pfx r kr
                · simp [hr, hiff]
                · have hrn : ¬ r = [] := fun h => hr (h ▸ pfx_nil_left kr)
                  simp [hr, hiff, hrn]
              · have hne := lookupCh_snocCh_ne el e (addKey emptyNode kr) he ch
                simp only [addKey, hl, nodeOf, children_mk, hne]
                have : ¬ pfx (e :: r) (el :: kr) := by
                  rw [pfx_cons]; exact fun h => he h.1
                simp [this]

theorem addKey_self_eq :
    ∀ (k : List α) (n : Node α), containsKey n k = true → addKey n k = n
  | [], .mk ch b, h => by
      simp only [containsKey, terminal_mk] at h
      simp [addKey, h]
  | el :: kr, .mk ch b, h => by
      cases hl : lookupCh ch el with
      | some child =>
          simp only [containsKey, children_mk, hl] at h
          simp only [addKey, hl]
          rw [addKey_self_eq kr child h, updCh_self_eq el ch child hl]
      | none =>
          simp only [containsKey, children_mk, hl] at h
          exact Bool.noConfusion h

/-! ### Well-formedness preservation -/

theorem wfN_mk (ch : NodeList α) (b : Bool) : wfN (.mk ch b) = wfL ch := rfl

theorem wfN_emptyNode : wfN (emptyNode (α := α)) = true := rfl

theorem lookupCh_wf (el : α) :
    ∀ (ch : NodeList α) (c : Node α), wfL ch = true → lookupCh ch el = some c → wfN c = true
  | .nil, c, hw, h => by simp [lookupCh] at h
  | .cons e n rest, c, hw, h => by
      simp only [wfL, Bool.and_eq_true] at hw
      by_cases he : e = el
      · have hn : n = c := by simpa [lookupCh, he] using h
        exact hn ▸ hw.1.2
      · simp only [lookupCh, if_neg he] at h
        exact lookupCh_wf el rest c hw.2 h

theorem wfL_updCh (el : α) (n' : Node α) :
    ∀ ch : NodeList α, wfL ch = true → wfN n' = true → wfL (updCh ch el n') = true
  | .nil, hw, hn => rfl
  | .cons e n rest, hw, hn => by
      simp only [wfL, Bool.and_eq_true] at hw
      by_cases he : e = el
      · simp only [updCh, if_pos he, wfL, Bool.and_eq_true]
        exact ⟨⟨hw.1.1, hn⟩, hw.2⟩
      · simp only [updCh, if_neg he, wfL, Bool.and_eq_true]
        refine ⟨⟨?_, hw.1.2⟩, wfL_updCh el n' rest hw.2 hn⟩
        have h1 := hw.1.1
        rw [Option.isNone_iff_eq_none, lookupCh_none_iff] at h1 ⊢
        rw [childKeys_updCh]
        exact h1

theorem wfL_snocCh (el : α) (n' : Node α) :
    ∀ ch : NodeList α, wfL ch = true → wfN n' = true → lookupCh ch el = none →
      wfL (snocCh ch el n') = true
  | .nil, hw, hn, hl => by simp [snocCh, wfL, lookupCh, hn]
  | .cons e n rest, hw, hn, hl => by
      simp only [wfL, Bool.and_eq_true] at hw
      have hee : ¬ e = el := by
        intro h
        subst h
        simp [lookupCh] at hl
      simp only [lookupCh, if_neg hee] at hl
      simp only [snocCh, wfL, Bool.and_eq_true]
      refine ⟨⟨?_, hw.1.2⟩, wfL_snocCh el n' rest hw.2 hn hl⟩
      rw [Option.isNone_iff_eq_none, lookupCh_snocCh_ne el e n' hee rest]
      exact Option.isNone_iff_eq_none.mp hw.1.1

theorem wfN_addKey :
    ∀ (k : List α) (n : Node α), wfN n = true → wfN (addKey n k) = true
  | [], .mk ch b, hw => hw
  | el :: kr, .mk ch b, hw => by
      rw [wfN_mk] at hw
      cases hl : lookupCh ch el with
      | some child =>
          have he : addKey (Node.mk ch b) (el :: kr) =
              Node.mk (updCh ch el (addKey child kr)) b := by
            simp [addKey, hl]
          rw [he, wfN_mk]
          exact wfL_updCh el _ ch hw (wfN_addKey kr child (lookupCh_wf el ch child hw hl))
      | none =>
          have he : addKey (Node.mk ch b) (el :: kr) =
              Node.mk (snocCh ch el (addKey emptyNode kr)) b := by
            simp [addKey, hl]
          rw [he, wfN_mk]
          exact wfL_snocCh el _ ch hw (wfN_addKey kr emptyNode rfl) hl

/-! ### Lemmas about tries built through the interface -/

theorem containsKey_foldl :
    ∀ (L : List (List α)) (n : Node α) (k : List α),
      containsKey (L.foldl addKey n) k = (containsKey n k || decide (k ∈ L))
  | [], n, k => by simp
  | x :: L, n, k => by
      simp only [List.foldl_cons, containsKey_foldl L (addKey n x) k, containsKey_addKey,
        List.mem_cons]
      by_cases h1 : k = x
      · simp [h1]
      · simp [h1]

theorem containsKey_buildT (L : List (List α)) (k : List α) :
    containsKey (buildT L) k = true ↔ k ∈ L := by
  simp [buildT, containsKey_foldl, contains_emptyNode]

theorem nodeOf_foldl_isSome :
    ∀ (L : List (List α)) (n : Node α) (p : List α),
      (nodeOf (L.foldl addKey n) p).isSome =
        ((nodeOf n p).isSome || L.any (fun k => decide (pfx p k)))
  | [], n, p => by simp
  | x :: L, n, p => by
      simp only [List.foldl_cons, nodeOf_foldl_isSome L (addKey n x) p, nodeOf_addKey_isSome,
        List.any_cons]
      rw [Bool.or_assoc]

theorem nodeOf_buildT_isSome (L : List (List α)) (p : List α) :
    (nodeOf (buildT L) p).isSome =
      (decide (p = []) || L.any (fun k => decide (pfx p k))) := by
  rw [buildT, nodeOf_foldl_isSome, nodeOf_emptyNode_isSome]

theorem wfN_buildT (L : List (List α)) : wfN (buildT L) = true := by
  rw [buildT]
  have h : ∀ (M : List (List α)) (n : Node α), wfN n = true → wfN (M.foldl addKey n) = true := by
    intro M
    induction M with
    | nil => intro n h; exact h
    | cons x M ih => intro n h; exact ih (addKey n x) (wfN_addKey x n h)
  exact h L emptyNode rfl

/-- C7: insertion is idempotent: re-adding a key that the trie already
contains leaves the tree identical node-for-node (hence every query
returns the same results). -/
theorem C7_reinsert_noop (t : Node α) (k : List α) (h : containsKey t k = true) :
    addKey t k = t :=
  addKey_self_eq k t h

theorem C7_witness :
    containsKey (buildT [['a', 'b']]) ['a', 'b'] = true ∧
      addKey (buildT [['a', 'b']]) ['a', 'b'] = buildT [['a', 'b']] :=
  ⟨by decide, C7_reinsert_noop (buildT [['a', 'b']]) ['a', 'b'] (by decide)⟩

/-- C5: `add` either raises the contract `TypeError` before touching the
tree (the returned tree is exactly the input tree), or fully succeeds:
the key is contained afterwards and every intermediate node along its
token path exists. -/
theorem C5_add_atomic (t : Node α) (v : Val α) :
    (isStrLike v = false → addChecked t v = (t, true)) ∧
    (isStrLike v = true →
      addChecked t v = (addKey t (tokensOf v), false) ∧
      containsKey (addKey t (tokensOf v)) (tokensOf v) = true ∧
      ∀ i : Nat, (nodeOf (addKey t (tokensOf v)) ((tokensOf v).take i)).isSome = true) := by
  constructor
  · intro h
    simp [addChecked, h]
  · intro h
    refine ⟨by simp [addChecked, h], ?_, ?_⟩
    · rw [containsKey_addKey]
      simp
    · intro i
      rw [nodeOf_addKey_isSome]
      simp [pfx_take]

theorem C5_witness :
    addChecked (emptyNode : Node Char) Val.bad = (emptyNode, true) ∧
      containsKey (addKey (emptyNode : Node Char) ['a']) ['a'] = true :=
  ⟨(C5_add_atomic emptyNode Val.bad).1 rfl,
    ((C5_add_atomic emptyNode (Val.str ['a'])).2 rfl).2.1⟩

/-! ### Error behaviour of the prefix-relative queries (C4) -/

theorem nodeOf_buildT_eq_none (L : List (List α)) (p : List α) :
    nodeOf (buildT L) p = none ↔
      (p ≠ [] ∧ ¬ ∃ k, containsKey (buildT L) k = true ∧ pfx p k) := by
  have hchar : ∀ k, containsKey (buildT L) k = true ↔ k ∈ L := containsKey_buildT L
  rw [← Option.not_isSome_iff_eq_none, nodeOf_buildT_isSome]
  simp only [Bool.or_eq_true, decide_eq_true_eq, List.any_eq_true]
  constructor
  · intro h
    push_neg at h
    refine ⟨h.1, ?_⟩
    rintro ⟨k, hk, hp⟩
    exact (h.2 k ((hchar k).mp hk)) (by simpa using hp)
  · rintro ⟨h1, h2⟩
    push_neg
    refine ⟨h1, fun k hk hp => h2 ⟨k, (hchar k).mpr hk, ?_⟩⟩
    simpa using hp

/-- C4 (amended): each prefix-relative query (`successors`, `suffixes` with
either `members_only` flag, `extensions`, `maximal_suffix`) raises
`KeyError` exactly when the prefix is nonempty and is not a prefix of any
stored key; the identity prefix never raises, because the root node always
exists even in an empty trie. -/
theorem C4_query_error_iff (L : List (List α)) (p : List α) (mo : Bool) :
    (succrs (buildT L) p = none ↔
      (p ≠ [] ∧ ¬ ∃ k, containsKey (buildT L) k = true ∧ pfx p k)) ∧
    (sfxs (buildT L) p mo = none ↔
      (p ≠ [] ∧ ¬ ∃ k, containsKey (buildT L) k = true ∧ pfx p k)) ∧
    (extns (buildT L) p mo = none ↔
      (p ≠ [] ∧ ¬ ∃ k, containsKey (buildT L) k = true ∧ pfx p k)) ∧
    (maxSfx (buildT L) p = none ↔
      (p ≠ [] ∧ ¬ ∃ k, containsKey (buildT L) k = true ∧ pfx p k)) := by
  have h := nodeOf_buildT_eq_none L p
  refine ⟨?_, ?_, ?_, ?_⟩
  · rw [succrs, Option.map_eq_none']
    exact h
  · rw [sfxs, Option.map_eq_none']
    exact h
  · rw [extns, Option.map_eq_none', sfxs, Option.map_eq_none']
    exact h
  · rw [maxSfx, Option.map_eq_none']
    exact h

/-- C4 counterexample to the claim as stated: in an empty trie the identity
prefix is not a prefix of any stored key (there are none), yet
`successors` does not raise — it resolves the root and yields nothing. -/
theorem C4_counterexample :
    succrs (buildT ([] : List (List Char))) [] = some [] ∧
      ¬ ∃ k, containsKey (buildT ([] : List (List Char))) k = true ∧
        pfx ([] : List Char) k := by
  constructor
  · rfl
  · rintro ⟨k, hk, -⟩
    rw [containsKey_buildT] at hk
    simp at hk

theorem C4_witness :
    succrs (buildT [['a', 'b']]) ['b'] = none ∧
      maxSfx (buildT [['a', 'b']]) ['a'] ≠ none := by
  have h := C4_query_error_iff [['a', 'b']] (['b'] : List Char) true
  have h2 := C4_query_error_iff [['a', 'b']] (['a'] : List Char) true
  constructor
  · refine h.1.mpr ⟨by decide, ?_⟩
    rintro ⟨k, hk, hp⟩
    rw [containsKey_buildT] at hk
    simp only [List.mem_singleton] at hk
    subst hk
    revert hp
    decide
  · intro hn
    obtain ⟨-, hno⟩ := (h2.2.2.2).mp hn
    refine hno ⟨['a', 'b'], ?_, by decide⟩
    rw [containsKey_buildT]
    exact List.mem_singleton.mpr rfl

/-! ### Enumeration of keys (C3) -/

theorem containsKey_cons (ch : NodeList α) (b : Bool) (el : α) (s : List α) :
    containsKey (.mk ch b) (el :: s) =
      (lookupCh ch el).elim false (fun c => containsKey c s) := by
  cases hl : lookupCh ch el <;> simp [containsKey, hl]

mutual

theorem keysOf_shape :
    ∀ (n : Node α) (pre k : List α), k ∈ keysOf n pre → ∃ s, k = pre ++ s
  | .mk ch b, pre, k => fun hk => by
      simp only [keysOf] at hk
      rcases List.mem_append.mp hk with h | h
      · cases b with
        | true =>
            simp at h
            exact ⟨[], by simp [h]⟩
        | false => simp at h
      · obtain ⟨el, s, hs, -⟩ := keysOfList_shape ch pre k h
        exact ⟨el :: s, hs⟩

theorem keysOfList_shape :
    ∀ (ch : NodeList α) (pre k : List α),
      k ∈ keysOfList ch pre → ∃ el s, k = pre ++ el :: s ∧ el ∈ childKeys ch
  | .nil, pre, k => by simp [keysOfList]
  | .cons el n rest, pre, k => fun hk => by
      simp only [keysOfList] at hk
      rcases List.mem_append.mp hk with h | h
      · obtain ⟨s, hs⟩ := keysOf_shape n (pre ++ [el]) k h
        refine ⟨el, s, ?_, by simp [childKeys]⟩
        rw [hs, List.append_assoc]
        rfl
      · obtain ⟨el', s, hs, hm⟩ := keysOfList_shape rest pre k h
        exact ⟨el', s, hs, by simp [childKeys, hm]⟩

end

mutual

theorem keysOf_mem :
    ∀ (n : Node α), wfN n = true → ∀ (pre k : List α),
      (k ∈ keysOf n pre ↔ ∃ s, k = pre ++ s ∧ containsKey n s = true)
  | .mk ch b, hw, pre, k => by
      rw [wfN_mk] at hw
      simp only [keysOf, List.mem_append]
      constructor
      · rintro (h | h)
        · cases b with
          | true =>
              simp at h
              exact ⟨[], by simp [h], rfl⟩
          | false => simp at h
        · obtain ⟨el, s, hk, hc⟩ := (keysOfList_mem ch hw pre k).mp h
          refine ⟨el :: s, hk, ?_⟩
          rw [containsKey_cons]
          rw [containsKey_cons] at hc
          exact hc
      · rintro ⟨s, hk, hc⟩
        cases s with
        | nil =>
            left
            simp only [containsKey, terminal_mk] at hc
            simp [hc, hk]
        | cons e s' =>
            right
            refine (keysOfList_mem ch hw pre k).mpr ⟨e, s', hk, ?_⟩
            rw [containsKey_cons]
            rw [containsKey_cons] at hc
            exact hc

theorem keysOfList_mem :
    ∀ (ch : NodeList α), wfL ch = true → ∀ (pre k : List α),
      (k ∈ keysOfList ch pre ↔
        ∃ el s, k = pre ++ el :: s ∧ containsKey (.mk ch true) (el :: s) = true)
  | .nil, hw, pre, k => by
      simp only [keysOfList, List.not_mem_nil, false_iff, not_exists]
      rintro el s ⟨-, hc⟩
      rw [containsKey_cons] at hc
      simp [lookupCh] at hc
  | .cons el n rest, hw, pre, k => by
      simp only [wfL, Bool.and_eq_true] at hw
      have hrestnone : lookupCh rest el = none :=
        Option.isNone_iff_eq_none.mp hw.1.1
      simp only [keysOfList, List.mem_append]
      constructor
      · rintro (h | h)
        · obtain ⟨s, hs, hc⟩ := (keysOf_mem n hw.1.2 (pre ++ [el]) k).mp h
          refine ⟨el, s, by rw [hs, List.append_assoc]; rfl, ?_⟩
          rw [containsKey_cons]
          simp [lookupCh, hc]
        · obtain ⟨el', s, hs, hc⟩ := (keysOfList_mem rest hw.2 pre k).mp h
          rw [containsKey_cons] at hc
          have hne : ¬ el = el' := by
            intro he
            subst he
            rw [hrestnone] at hc
            simp at hc
          refine ⟨el', s, hs, ?_⟩
          rw [containsKey_cons]
          simp only [lookupCh, if_neg hne]
          exact hc
      · rintro ⟨el', s, hs, hc⟩
        rw [containsKey_cons] at hc
        by_cases he : el = el'
        · subst he
          simp only [lookupCh, if_pos rfl, Option.elim] at hc
          left
          refine (keysOf_mem n hw.1.2 (pre ++ [el]) k).mpr ⟨s, ?_, hc⟩
          rw [hs, List.append_assoc]
          rfl
        · right
          refine (keysOfList_mem rest hw.2 pre k).mpr ⟨el', s, hs, ?_⟩
          rw [containsKey_cons]
          simp only [lookupCh, if_neg he] at hc
          exact hc

end

mutual

theorem keysOf_nodup :
    ∀ (n : Node α), wfN n = true → ∀ pre, (keysOf n pre).Nodup
  | .mk ch b, hw, pre => by
      rw [wfN_mk] at hw
      simp only [keysOf]
      rw [List.nodup_append]
      refine ⟨?_, keysOfList_nodup ch hw pre, ?_⟩
      · cases b <;> simp
      · intro k hk1 hk2
        cases b with
        | false => simp at hk1
        | true =>
            simp at hk1
            subst hk1
            obtain ⟨el, s, hs, -⟩ := keysOfList_shape ch k k hk2
            have := congrArg List.length hs
            simp only [List.length_append, List.length_cons] at this
            omega

theorem keysOfList_nodup :
    ∀ (ch : NodeList α), wfL ch = true → ∀ pre, (keysOfList ch pre).Nodup
  | .nil, hw, pre => by simp [keysOfList]
  | .cons el n rest, hw, pre => by
      simp only [wfL, Bool.and_eq_true] at hw
      simp only [keysOfList]
      rw [List.nodup_append]
      refine ⟨keysOf_nodup n hw.1.2 (pre ++ [el]), keysOfList_nodup rest hw.2 pre, ?_⟩
      intro k hk1 hk2
      obtain ⟨s, hs⟩ := keysOf_shape n (pre ++ [el]) k hk1
      obtain ⟨el', s', hs', hm⟩ := keysOfList_shape rest pre k hk2
      rw [List.append_assoc] at hs
      simp only [List.singleton_append] at hs
      have heq : el :: s = el' :: s' := by
        have h1 : pre ++ el :: s = pre ++ el' :: s' := by
          rw [← hs, ← hs']
        exact List.append_cancel_left h1
      have hee : el = el' := (List.cons.injEq _ _ _ _ ▸ heq).1
      subst hee
      have hnone := Option.isNone_iff_eq_none.mp hw.1.1
      rw [lookupCh_none_iff] at hnone
      exact hnone hm

end

/-- C3: after any sequence of insertions, enumerating the trie yields each
distinct inserted key exactly once: the enumeration has no duplicates, and
a key is enumerated iff it was inserted (order unspecified). -/
theorem C3_enumerate_exact (L : List (List α)) :
    (keysOf (buildT L) []).Nodup ∧ ∀ k, (k ∈ keysOf (buildT L) [] ↔ k ∈ L) := by
  refine ⟨keysOf_nodup (buildT L) (wfN_buildT L) [], fun k => ?_⟩
  rw [keysOf_mem (buildT L) (wfN_buildT L) [] k]
  constructor
  · rintro ⟨s, hk, hc⟩
    simp only [List.nil_append] at hk
    subst hk
    exact (containsKey_buildT L k).mp hc
  · intro hk
    exact ⟨k, by simp, (containsKey_buildT L k).mpr hk⟩

theorem C3_witness :
    (keysOf (buildT [['a'], ['b'], ['a']]) []).Nodup ∧
      (['a'] ∈ keysOf (buildT [['a'], ['b'], ['a']]) [] ↔
        ['a'] ∈ [['a'], ['b'], ['a']]) :=
  ⟨(C3_enumerate_exact [['a'], ['b'], ['a']]).1,
    (C3_enumerate_exact [['a'], ['b'], ['a']]).2 ['a']⟩

/-! ### Counting (C1) -/

/-- C1 (code bug): inserting the empty (identity) key into an empty trie
stores exactly one distinct key — the key is contained and the enumeration
yields precisely the identity element — yet `len` reports 0, because the
work-list of `__len__` starts from the root's children and never examines
the root's own terminal flag (contradicting the code's own comment that it
"should be equivalent to len(tuple(self))"). -/
theorem C1_len_misses_identity :
    containsKey (buildT [([] : List Char)]) [] = true ∧
      keysOf (buildT [([] : List Char)]) [] = [[]] ∧
      trieLen (buildT [([] : List Char)]) = 0 :=
  ⟨rfl, rfl, rfl⟩

/-! ### The path walk, `prefixes`, and `maximal_prefix` (C8, C10) -/

theorem containsKey_eq_nodeOf :
    ∀ (k : List α) (n : Node α), containsKey n k = (nodeOf n k).elim false Node.terminal
  | [], n => rfl
  | e :: r, n => by
      cases hl : lookupCh n.children e with
      | some child => simp [containsKey, nodeOf, hl, containsKey_eq_nodeOf r child]
      | none => simp [containsKey, nodeOf, hl]

theorem pathTo_length_le :
    ∀ (s : List α) (n : Node α), (pathTo n s).length ≤ s.length + 1
  | [], n => by simp [pathTo]
  | e :: r, n => by
      cases hl : lookupCh n.children e with
      | some child =>
          simp only [pathTo, hl, List.length_cons, List.length_cons]
          have := pathTo_length_le r child
          omega
      | none => simp [pathTo, hl]

theorem pathTo_get :
    ∀ (s : List α) (n : Node α) (i : Nat), i ≤ s.length →
      (pathTo n s)[i]? = nodeOf n (s.take i)
  | [], n, i, h => by
      have hi : i = 0 := Nat.le_zero.mp h
      subst hi
      simp [pathTo, nodeOf]
  | e :: r, n, i, h => by
      cases hl : lookupCh n.children e with
      | some child =>
          cases i with
          | zero => simp [pathTo, hl, nodeOf]
          | succ i' =>
              simp only [pathTo, hl, List.getElem?_cons_succ, List.take_succ_cons, nodeOf,
                children_mk]
              rw [pathTo_get r child i' (by simpa using h)]
      | none =>
          cases i with
          | zero => simp [pathTo, hl, nodeOf]
          | succ i' =>
              simp only [pathTo, hl, List.take_succ_cons, nodeOf]
              cases n with
              | mk ch b =>
                  simp only [children_mk] at hl
                  simp [hl]

theorem foldl_if_last {β γ : Type} (c : β → Bool) (v : β → γ) :
    ∀ (xs : List β) (init : Option γ),
      xs.foldl (fun acc x => if c x then some (v x) else acc) init =
        ((xs.filterMap (fun x => if c x then some (v x) else none)).getLast?).elim init some
  | [], init => rfl
  | x :: xs, init => by
      simp only [List.foldl_cons, List.filterMap_cons]
      by_cases hc : c x
      · simp only [if_pos hc]
        rw [foldl_if_last c v xs (some (v x))]
        cases hlast : (xs.filterMap fun y => if c y then some (v y) else none).getLast? with
        | none =>
            rw [List.getLast?_eq_none_iff] at hlast
            rw [hlast]
            rfl
        | some m =>
            cases ht : xs.filterMap (fun y => if c y then some (v y) else none) with
            | nil =>
                rw [ht] at hlast
                simp at hlast
            | cons y t =>
                rw [ht] at hlast
                simp only [List.getLast?_cons_cons, hlast, Option.elim]
      · simp only [if_neg hc]
        exact foldl_if_last c v xs init

theorem maximalPref_eq_getLast (root : Node α) (s : List α) :
    maximalPref root s = (termIdxs root s).getLast?.map (fun i => s.take i) := by
  rw [maximalPref,
    foldl_if_last (fun p : Nat × Node α => p.2.terminal) (fun p : Nat × Node α => p.1)]
  rw [termIdxs]
  cases (List.enum (pathTo root s)).filterMap
      (fun p : Nat × Node α => if p.2.terminal then some p.1 else none) |>.getLast? with
  | none => rfl
  | some m => rfl

theorem prefixesOf_eq_map (root : Node α) (s : List α) :
    prefixesOf root s = (termIdxs root s).map (fun i => s.take i) := by
  rw [prefixesOf, termIdxs, List.map_filterMap]
  congr 1
  funext p
  by_cases h : p.2.terminal <;> simp [h]

theorem mem_idx_enumFrom :
    ∀ (l : List (Node α)) (j i : Nat),
      i ∈ (List.enumFrom j l).filterMap
          (fun p : Nat × Node α => if p.2.terminal then some p.1 else none) ↔
        ∃ nd, j ≤ i ∧ l[i - j]? = some nd ∧ nd.terminal = true
  | [], j, i => by simp
  | nd :: l, j, i => by
      rw [List.enumFrom_cons]
      by_cases h : nd.terminal
      · have hcons : List.filterMap
            (fun p : Nat × Node α => if p.2.terminal then some p.1 else none)
            ((j, nd) :: List.enumFrom (j + 1) l) =
            j :: List.filterMap
              (fun p : Nat × Node α => if p.2.terminal then some p.1 else none)
              (List.enumFrom (j + 1) l) := by
          rw [List.filterMap_cons]
          simp [h]
        rw [hcons]
        rw [List.mem_cons]
        constructor
        · rintro (rfl | hi)
          · exact ⟨nd, Nat.le_refl _, by simp, h⟩
          · obtain ⟨nd', hj, hget, ht⟩ := (mem_idx_enumFrom l (j + 1) i).mp hi
            refine ⟨nd', by omega, ?_, ht⟩
            have hij : i - j = (i - (j + 1)) + 1 := by omega
            rw [hij, List.getElem?_cons_succ]
            exact hget
        · rintro ⟨nd', hj, hget, ht⟩
          by_cases hij : i = j
          · left; exact hij
          · right
            refine (mem_idx_enumFrom l (j + 1) i).mpr ⟨nd', by omega, ?_, ht⟩
            have h2 : i - j = (i - (j + 1)) + 1 := by omega
            rw [h2, List.getElem?_cons_succ] at hget
            exact hget
      · have hcons : List.filterMap
            (fun p : Nat × Node α => if p.2.terminal then some p.1 else none)
            ((j, nd) :: List.enumFrom (j + 1) l) =
            List.filterMap
              (fun p : Nat × Node α => if p.2.terminal then some p.1 else none)
              (List.enumFrom (j + 1) l) := by
          rw [List.filterMap_cons]
          simp [h]
        rw [hcons]
        constructor
        · intro hi
          obtain ⟨nd', hj, hget, ht⟩ := (mem_idx_enumFrom l (j + 1) i).mp hi
          refine ⟨nd', by omega, ?_, ht⟩
          have hij : i - j = (i - (j + 1)) + 1 := by omega
          rw [hij, List.getElem?_cons_succ]
          exact hget
        · rintro ⟨nd', hj, hget, ht⟩
          by_cases hij : i = j
          · subst hij
            simp only [Nat.sub_self, List.getElem?_cons_zero, Option.some.injEq] at hget
            subst hget
            exact absurd ht h
          · refine (mem_idx_enumFrom l (j + 1) i).mpr ⟨nd', by omega, ?_, ht⟩
            have h2 : i - j = (i - (j + 1)) + 1 := by omega
            rw [h2, List.getElem?_cons_succ] at hget
            exact hget

theorem mem_termIdxs (root : Node α) (s : List α) (i : Nat) :
    i ∈ termIdxs root s ↔
      ∃ nd, (pathTo root s)[i]? = some nd ∧ nd.terminal = true := by
  rw [termIdxs]
  have he : List.enum (pathTo root s) = List.enumFrom 0 (pathTo root s) := rfl
  rw [he, mem_idx_enumFrom]
  constructor
  · rintro ⟨nd, -, hget, ht⟩
    exact ⟨nd, by simpa using hget, ht⟩
  · rintro ⟨nd, hget, ht⟩
    exact ⟨nd, Nat.zero_le _, by simpa using hget, ht⟩

theorem pairwise_idx_enumFrom :
    ∀ (l : List (Node α)) (j : Nat),
      ((List.enumFrom j l).filterMap
          (fun p : Nat × Node α => if p.2.terminal then some p.1 else none)).Pairwise (· < ·)
  | [], j => by simp
  | nd :: l, j => by
      rw [List.enumFrom_cons]
      by_cases h : nd.terminal
      · have hcons : List.filterMap
            (fun p : Nat × Node α => if p.2.terminal then some p.1 else none)
            ((j, nd) :: List.enumFrom (j + 1) l) =
            j :: List.filterMap
              (fun p : Nat × Node α => if p.2.terminal then some p.1 else none)
              (List.enumFrom (j + 1) l) := by
          rw [List.filterMap_cons]
          simp [h]
        rw [hcons]
        rw [List.pairwise_cons]
        refine ⟨?_, pairwise_idx_enumFrom l (j + 1)⟩
        intro x hx
        obtain ⟨nd', hj, -, -⟩ := (mem_idx_enumFrom l (j + 1) x).mp hx
        omega
      · have hcons : List.filterMap
            (fun p : Nat × Node α => if p.2.terminal then some p.1 else none)
            ((j, nd) :: List.enumFrom (j + 1) l) =
            List.filterMap
              (fun p : Nat × Node α => if p.2.terminal then some p.1 else none)
              (List.enumFrom (j + 1) l) := by
          rw [List.filterMap_cons]
          simp [h]
        rw [hcons]
        exact pairwise_idx_enumFrom l (j + 1)

theorem pairwise_termIdxs (root : Node α) (s : List α) :
    (termIdxs root s).Pairwise (· < ·) :=
  pairwise_idx_enumFrom (pathTo root s) 0

theorem termIdxs_le (root : Node α) (s : List α) (i : Nat) (h : i ∈ termIdxs root s) :
    i ≤ s.length := by
  obtain ⟨nd, hget, -⟩ := (mem_termIdxs root s i).mp h
  have h1 : i < (pathTo root s).length := by
    rcases List.getElem?_eq_some_iff.mp hget with ⟨hlt, -⟩
    exact hlt
  have h2 := pathTo_length_le s root
  omega

theorem pairwise_lt_getLast_max :
    ∀ (l : List Nat), l.Pairwise (· < ·) → ∀ m, l.getLast? = some m → ∀ x ∈ l, x ≤ m
  | [], _, m, h => by simp at h
  | a :: l, hp, m, h => by
      rw [List.pairwise_cons] at hp
      cases l with
      | nil =>
          simp only [List.getLast?_singleton, Option.some.injEq] at h
          intro x hx
          simp only [List.mem_singleton] at hx
          omega
      | cons b l' =>
          rw [List.getLast?_cons_cons] at h
          intro x hx
          rcases List.mem_cons.mp hx with rfl | hx'
          · have hm : m ∈ b :: l' := by
              obtain ⟨hne, hm⟩ := List.mem_getLast?_eq_getLast (x := m) (by rw [h]; rfl)
              exact hm ▸ List.getLast_mem hne
            have := hp.1 m hm
            omega
          · exact pairwise_lt_getLast_max (b :: l') hp.2 m h x hx'

theorem exists_stored_pfx_iff (root : Node α) (s : List α) :
    (∃ k, containsKey root k = true ∧ pfx k s) ↔ ∃ i, i ∈ termIdxs root s := by
  constructor
  · rintro ⟨k, hc, hp⟩
    have hk : k = s.take k.length := (pfx_iff_eq_take k s).mp hp
    have hlen : k.length ≤ s.length := pfx_length_le hp
    refine ⟨k.length, (mem_termIdxs root s k.length).mpr ?_⟩
    rw [containsKey_eq_nodeOf] at hc
    cases hn : nodeOf root k with
    | none => rw [hn] at hc; simp [Option.elim] at hc
    | some nd =>
        rw [hn] at hc
        simp only [Option.elim] at hc
        refine ⟨nd, ?_, hc⟩
        rw [pathTo_get s root k.length hlen, ← hk]
        exact hn
  · rintro ⟨i, hi⟩
    obtain ⟨nd, hget, ht⟩ := (mem_termIdxs root s i).mp hi
    have hle : i ≤ s.length := termIdxs_le root s i hi
    refine ⟨s.take i, ?_, pfx_take s i⟩
    rw [containsKey_eq_nodeOf, ← pathTo_get s root i hle, hget]
    exact ht

/-- C8: `maximal_prefix(string)` raises `KeyError` exactly when no stored
key is a prefix of the string, and otherwise returns the longest stored key
that is a prefix of the string. -/
theorem C8_maximal_pref_correct (root : Node α) (s : List α) :
    (maximalPref root s = none ↔ ¬ ∃ k, containsKey root k = true ∧ pfx k s) ∧
    (∀ r, maximalPref root s = some r →
      containsKey root r = true ∧ pfx r s ∧
      ∀ k, containsKey root k = true → pfx k s → k.length ≤ r.length) := by
  constructor
  · rw [maximalPref_eq_getLast, exists_stored_pfx_iff]
    cases h : (termIdxs root s).getLast? with
    | none =>
        simp only [Option.map_none', true_iff]
        rw [List.getLast?_eq_none_iff] at h
        rintro ⟨i, hi⟩
        rw [h] at hi
        simp at hi
    | some m =>
        simp only [Option.map_some']
        constructor
        · intro hfalse
          exact absurd hfalse (by simp)
        · intro hno
          obtain ⟨hne, hm⟩ := List.mem_getLast?_eq_getLast (x := m) (by rw [h]; rfl)
          exact absurd ⟨m, hm ▸ List.getLast_mem hne⟩ hno
  · intro r hr
    rw [maximalPref_eq_getLast] at hr
    cases h : (termIdxs root s).getLast? with
    | none => rw [h] at hr; simp at hr
    | some m =>
        rw [h] at hr
        simp only [Option.map_some', Option.some.injEq] at hr
        subst hr
        have hmem : m ∈ termIdxs root s := by
          obtain ⟨hne, hm⟩ := List.mem_getLast?_eq_getLast (x := m) (by rw [h]; rfl)
          exact hm ▸ List.getLast_mem hne
        have hmle : m ≤ s.length := termIdxs_le root s m hmem
        obtain ⟨nd, hget, ht⟩ := (mem_termIdxs root s m).mp hmem
        refine ⟨?_, pfx_take s m, ?_⟩
        · rw [containsKey_eq_nodeOf, ← pathTo_get s root m hmle, hget]
          exact ht
        · intro k hc hp
          have hk : k = s.take k.length := (pfx_iff_eq_take k s).mp hp
          have hkmem : k.length ∈ termIdxs root s := by
            obtain ⟨i, hi⟩ := (exists_stored_pfx_iff root s).mp ⟨k, hc, hp⟩
            obtain ⟨nd', hget', ht'⟩ := (mem_termIdxs root s i).mp hi
            -- recompute directly for k.length instead
            refine (mem_termIdxs root s k.length).mpr ?_
            rw [containsKey_eq_nodeOf] at hc
            cases hn : nodeOf root k with
            | none => rw [hn] at hc; simp [Option.elim] at hc
            | some nd'' =>
                rw [hn] at hc
                refine ⟨nd'', ?_, hc⟩
                rw [pathTo_get s root k.length (pfx_length_le hp), ← hk]
                exact hn
          have hle : k.length ≤ m :=
            pairwise_lt_getLast_max (termIdxs root s) (pairwise_termIdxs root s) m h
              k.length hkmem
          have : (s.take m).length = m := by
            rw [List.length_take]
            omega
          omega

theorem C8_witness :
    ¬ ∃ k, containsKey
        (buildT [['a', 'b', 'c'], ['a', 'a', 'c'], ['a', 'd', 'c'], ['a', 'd', 'c', 'e']])
        k = true ∧ pfx k ['a', 'd'] :=
  (C8_maximal_pref_correct
    (buildT [['a', 'b', 'c'], ['a', 'a', 'c'], ['a', 'd', 'c'], ['a', 'd', 'c', 'e']])
    ['a', 'd']).1.mp (by decide)

/-- C10: the keys yielded by `prefixes(string)` strictly increase in length,
each being a proper leading segment of every later one, and the last yielded
key (when any) is exactly the result of `maximal_prefix(string)`. -/
theorem C10_prefixes_increasing (root : Node α) (s : List α) :
    (prefixesOf root s).Pairwise (fun a b => a.length < b.length ∧ pfx a b) ∧
    (prefixesOf root s).getLast? = maximalPref root s := by
  constructor
  · rw [prefixesOf_eq_map]
    rw [List.pairwise_map]
    have hp := pairwise_termIdxs root s
    refine hp.imp_of_mem ?_
    intro i j hi hj hij
    have hile : i ≤ s.length := termIdxs_le root s i hi
    have hjle : j ≤ s.length := termIdxs_le root s j hj
    constructor
    · rw [List.length_take, List.length_take]
      omega
    · rw [pfx, List.length_take, List.take_take]
      congr 1
      omega
  · rw [prefixesOf_eq_map, maximalPref_eq_getLast, List.getLast?_map]

theorem C10_witness :
    (prefixesOf (buildT [['a'], ['a', 'b']]) ['a', 'b', 'c']).Pairwise
        (fun a b => a.length < b.length ∧ pfx a b) ∧
      (prefixesOf (buildT [['a'], ['a', 'b']]) ['a', 'b', 'c']).getLast? =
        maximalPref (buildT [['a'], ['a', 'b']]) ['a', 'b', 'c'] :=
  C10_prefixes_increasing (buildT [['a'], ['a', 'b']]) ['a', 'b', 'c']

/-! ### Suffix segments and borders -/

theorem endSeg_zero (w : List α) : endSeg w 0 = [] := by
  simp [endSeg]

theorem endSeg_length {w : List α} {l : Nat} (h : l ≤ w.length) :
    (endSeg w l).length = l := by
  simp only [endSeg, List.length_drop]
  omega

theorem endSeg_endSeg {w : List α} {l1 l2 : Nat} (h1 : l1 ≤ l2) (h2 : l2 ≤ w.length) :
    endSeg (endSeg w l2) l1 = endSeg w l1 := by
  simp only [endSeg, List.length_drop]
  rw [List.drop_drop]
  congr 1
  omega

theorem endSeg_append_one (w : List α) (c : α) (l : Nat) (h : l ≤ w.length) :
    endSeg (w ++ [c]) (l + 1) = endSeg w l ++ [c] := by
  simp only [endSeg, List.length_append, List.length_cons, List.length_nil]
  rw [show w.length + (0 + 1) - (l + 1) = w.length - l from by omega]
  exact List.drop_append_of_le_length (by omega)

theorem seg_ext_iff {u w : List α} {c : α} {l : Nat} (hu : l ≤ u.length) (hw : l ≤ w.length) :
    u.take (l + 1) = endSeg (w ++ [c]) (l + 1) ↔
      (u.take l = endSeg w l ∧ u[l]? = some c) := by
  rw [endSeg_append_one w c l hw, List.take_succ]
  constructor
  · intro h
    have hlen1 : (u.take l).length = l := by
      rw [List.length_take]
      omega
    have hlen2 : (endSeg w l).length = l := endSeg_length hw
    obtain ⟨h1, h2⟩ := List.append_inj h (by rw [hlen1, hlen2])
    refine ⟨h1, ?_⟩
    cases hul : u[l]? with
    | none => rw [hul] at h2; simp at h2
    | some x =>
        rw [hul] at h2
        simp only [Option.toList_some, List.cons.injEq, and_true] at h2
        rw [h2]
  · rintro ⟨h1, h2⟩
    rw [h1, h2]
    rfl

theorem isBd_zero {w : List α} (h : w ≠ []) : IsBd w 0 := by
  refine ⟨List.length_pos.mpr h, ?_⟩
  rw [endSeg_zero]
  rfl

theorem isBd_take_succ_iff {p : List α} {j l : Nat} (hj : j < p.length) :
    IsBd (p.take (j + 1)) (l + 1) ↔ (IsBd (p.take j) l ∧ p[l]? = p[j]?) := by
  obtain ⟨cj, hcj⟩ : ∃ cj, p[j]? = some cj :=
    ⟨p[j], List.getElem?_eq_some_iff.mpr ⟨hj, rfl⟩⟩
  have htake : p.take (j + 1) = p.take j ++ [cj] := by
    rw [List.take_succ, hcj]
    rfl
  have hlenj : (p.take j).length = j := by
    rw [List.length_take]
    omega
  have hlenj1 : (p.take (j + 1)).length = j + 1 := by
    rw [List.length_take]
    omega
  constructor
  · rintro ⟨hlt, heq⟩
    rw [hlenj1] at hlt
    have hlj : l < j := by omega
    have e1 : (p.take (j + 1)).take (l + 1) = p.take (l + 1) := by
      rw [List.take_take]
      congr 1
      omega
    rw [e1, htake] at heq
    have hres := (seg_ext_iff (by omega) (by rw [hlenj]; omega)).mp heq
    have e2 : (p.take j).take l = p.take l := by
      rw [List.take_take]
      congr 1
      omega
    refine ⟨⟨by rw [hlenj]; omega, ?_⟩, by rw [hres.2, hcj]⟩
    rw [e2]
    exact hres.1
  · rintro ⟨⟨hlt, heq⟩, hll⟩
    have hlj : l < j := by rw [hlenj] at hlt; exact hlt
    refine ⟨by rw [hlenj1]; omega, ?_⟩
    have e1 : (p.take (j + 1)).take (l + 1) = p.take (l + 1) := by
      rw [List.take_take]
      congr 1
      omega
    have e2 : (p.take j).take l = p.take l := by
      rw [List.take_take]
      congr 1
      omega
    rw [e1, htake]
    exact (seg_ext_iff (by omega) (by rw [hlenj]; omega)).mpr
      ⟨e2.symm.trans heq, by rw [hll, hcj]⟩

theorem bd_le (w : List α) : bd w ≤ w.length - 1 := Nat.findGreatest_le _

theorem bd_lt {w : List α} (h : w ≠ []) : bd w < w.length := by
  have h1 := bd_le w
  have h2 : 0 < w.length := List.length_pos.mpr h
  omega

theorem isBd_bd {w : List α} (h : w ≠ []) : IsBd w (bd w) :=
  Nat.findGreatest_spec (Nat.zero_le _) (isBd_zero h)

theorem le_bd {w : List α} {l : Nat} (h : IsBd w l) : l ≤ bd w :=
  Nat.le_findGreatest (by have := h.1; omega) h

theorem chain_down {w : List α} {b l : Nat} (hb : IsBd w b) (hl : IsBd w l) (hlb : l < b) :
    IsBd (w.take b) l := by
  have hble : b ≤ w.length := le_of_lt hb.1
  constructor
  · rw [List.length_take]
    omega
  · rw [List.take_take, show min l b = l from by omega, hl.2]
    conv_rhs => rw [hb.2]
    exact (endSeg_endSeg (le_of_lt hlb) hble).symm

theorem chain_up {w : List α} {b l : Nat} (hb : IsBd w b) (hl : IsBd (w.take b) l) :
    IsBd w l := by
  have hble : b ≤ w.length := le_of_lt hb.1
  have hlb : l < b := by
    have := hl.1
    rw [List.length_take] at this
    omega
  constructor
  · omega
  · have h1 : (w.take b).take l = w.take l := by
      rw [List.take_take]
      congr 1
      omega
    rw [← h1, hl.2, hb.2]
    exact endSeg_endSeg (le_of_lt hlb) hble

theorem take_ne_nil_of_pos {p : List α} {j : Nat} (h1 : 1 ≤ j) (h2 : j ≤ p.length) :
    p.take j ≠ [] := by
  have hl : (p.take j).length = j := by
    rw [List.length_take]
    omega
  intro h0
  rw [h0] at hl
  simp at hl
  omega

theorem length_take_of_le {p : List α} {j : Nat} (h : j ≤ p.length) :
    (p.take j).length = j := by
  rw [List.length_take]
  omega

theorem satBd_of_isBd {p : List α} {j l : Nat} (h1 : 1 ≤ j) (h2 : j ≤ p.length)
    (hl : IsBd (p.take j) l) : satBd p (bd (p.take j)) l := by
  have hne := take_ne_nil_of_pos h1 h2
  have hB := isBd_bd hne
  have hle := le_bd hl
  have hBlt : bd (p.take j) < j := by
    have := bd_lt hne
    rw [length_take_of_le h2] at this
    exact this
  rcases Nat.lt_or_ge l (bd (p.take j)) with hlt | hge
  · right
    have hd := chain_down hB hl hlt
    rwa [List.take_take, show min (bd (p.take j)) j = bd (p.take j) from by omega] at hd
  · left
    omega

theorem isBd_of_satBd {p : List α} {j l : Nat} (h1 : 1 ≤ j) (h2 : j ≤ p.length)
    (hl : satBd p (bd (p.take j)) l) : IsBd (p.take j) l := by
  have hne := take_ne_nil_of_pos h1 h2
  have hB := isBd_bd hne
  have hBlt : bd (p.take j) < j := by
    have := bd_lt hne
    rw [length_take_of_le h2] at this
    exact this
  rcases hl with rfl | hbd
  · exact hB
  · apply chain_up hB
    rwa [List.take_take, show min (bd (p.take j)) j = bd (p.take j) from by omega]

theorem descSpec_max (p : List α) (c : α) :
    ∀ j : Nat, j ≤ p.length →
      (∀ l : Nat, satBd p j l → l < p.length → p[l]? = some c → (l : Int) ≤ descSpec p c j) ∧
      (∀ d : Nat, descSpec p c j = (d : Int) →
        satBd p j d ∧ d < p.length ∧ p[d]? = some c) ∧
      (descSpec p c j = -1 ∨ ∃ d : Nat, descSpec p c j = (d : Int))
  | j, hjl => by
      by_cases hg : j < p.length ∧ p[j]? = some c
      · rw [descSpec, if_pos hg]
        refine ⟨?_, ?_, Or.inr ⟨j, rfl⟩⟩
        · intro l hsat hlp hlc
          rcases hsat with rfl | hbd
          · omega
          · have hll := hbd.1
            rw [List.length_take] at hll
            omega
        · intro d hd
          have hdj : d = j := by exact_mod_cast hd.symm
          subst hdj
          exact ⟨Or.inl rfl, hg.1, hg.2⟩
      · rw [descSpec, if_neg hg]
        by_cases hj : j = 0
        · rw [if_pos hj]
          subst hj
          refine ⟨?_, ?_, Or.inl rfl⟩
          · intro l hsat hlp hlc
            rcases hsat with rfl | hbd
            · exact absurd ⟨hlp, hlc⟩ hg
            · have := hbd.1
              simp at this
          · intro d hd
            omega
        · rw [if_neg hj]
          have h1j : 1 ≤ j := by omega
          have hBlt : bd (p.take j) < j := by
            have := bd_lt (take_ne_nil_of_pos h1j hjl)
            rw [length_take_of_le hjl] at this
            exact this
          obtain ⟨ih1, ih2, ih3⟩ := descSpec_max p c (bd (p.take j)) (by omega)
          refine ⟨?_, ?_, ih3⟩
          · intro l hsat hlp hlc
            rcases hsat with rfl | hbd
            · exact absurd ⟨hlp, hlc⟩ hg
            · exact ih1 l (satBd_of_isBd h1j hjl hbd) hlp hlc
          · intro d hd
            obtain ⟨hsat, hdl, hdc⟩ := ih2 d hd
            exact ⟨Or.inr (isBd_of_satBd h1j hjl hsat), hdl, hdc⟩
termination_by j => j

theorem descSpec_le_self (p : List α) (c : α) (j : Nat) (hjl : j ≤ p.length) :
    descSpec p c j ≤ (j : Int) ∧ -1 ≤ descSpec p c j := by
  obtain ⟨-, h2, h3⟩ := descSpec_max p c j hjl
  rcases h3 with h | ⟨d, hd⟩
  · rw [h]
    omega
  · obtain ⟨hsat, -, -⟩ := h2 d hd
    rw [hd]
    rcases hsat with rfl | hbd
    · omega
    · have := hbd.1
      rw [List.length_take] at this
      omega

theorem bd_take_one (p : List α) : bd (p.take 1) = 0 := by
  unfold bd
  rw [show (p.take 1).length - 1 = 0 from by rw [List.length_take]; omega]
  rfl

theorem bd_take_succ (p : List α) (pos : Nat) (cp : α) (h1 : 1 ≤ pos) (h2 : pos < p.length)
    (hc : p[pos]? = some cp) :
    (bd (p.take (pos + 1)) : Int) = descSpec p cp (bd (p.take pos)) + 1 := by
  have hpos_ne : p.take pos ≠ [] := take_ne_nil_of_pos h1 (by omega)
  have hpos1_ne : p.take (pos + 1) ≠ [] := take_ne_nil_of_pos (by omega) (by omega)
  have hBlt : bd (p.take pos) < pos := by
    have := bd_lt hpos_ne
    rw [length_take_of_le (by omega : pos ≤ p.length)] at this
    exact this
  obtain ⟨h1', h2', h3'⟩ := descSpec_max p cp (bd (p.take pos)) (by omega)
  rcases h3' with hneg | ⟨d, hd⟩
  · rw [hneg]
    have hz : bd (p.take (pos + 1)) = 0 := by
      by_contra hne
      obtain ⟨l, hl⟩ : ∃ l, bd (p.take (pos + 1)) = l + 1 :=
        ⟨bd (p.take (pos + 1)) - 1, by omega⟩
      have hbd' := isBd_bd hpos1_ne
      rw [hl, isBd_take_succ_iff h2] at hbd'
      have hlp : l < p.length := by
        have := hbd'.1.1
        rw [length_take_of_le (by omega : pos ≤ p.length)] at this
        omega
      have := h1' l (satBd_of_isBd h1 (by omega) hbd'.1) hlp (by rw [hbd'.2, hc])
      rw [hneg] at this
      omega
    rw [hz]
    omega
  · rw [hd]
    obtain ⟨hsat, hdlen, hdc⟩ := h2' d hd
    have hIs : IsBd (p.take (pos + 1)) (d + 1) := by
      rw [isBd_take_succ_iff h2]
      exact ⟨isBd_of_satBd h1 (by omega) hsat, by rw [hdc, hc]⟩
    have hle1 : d + 1 ≤ bd (p.take (pos + 1)) := le_bd hIs
    have hle2 : bd (p.take (pos + 1)) ≤ d + 1 := by
      by_contra hgt
      push_neg at hgt
      obtain ⟨l, hl⟩ : ∃ l, bd (p.take (pos + 1)) = l + 1 :=
        ⟨bd (p.take (pos + 1)) - 1, by omega⟩
      have hbd' := isBd_bd hpos1_ne
      rw [hl, isBd_take_succ_iff h2] at hbd'
      have hlp : l < p.length := by
        have := hbd'.1.1
        rw [length_take_of_le (by omega : pos ≤ p.length)] at this
        omega
      have := h1' l (satBd_of_isBd h1 (by omega) hbd'.1) hlp (by rw [hbd'.2, hc])
      rw [hd] at this
      omega
    omega

/-! ### The shift table computes `i - bd (p.take i)` -/

theorem tblLoop_eq (p : List α) (tbl : List ℕ+) (pos : Nat) (cp : α)
    (hpos : pos < p.length) (hcp : p[pos]? = some cp)
    (ht : ∀ i, 1 ≤ i → i ≤ pos → (tbl.getD i 1).val = i - bd (p.take i))
    (ht0 : (tbl.getD 0 1).val = 1) :
    ∀ shift : ℕ+, shift.val ≤ pos →
      ((tblLoop p tbl pos shift).val : Int) = (pos : Int) - descSpec p cp (pos - shift.val)
  | shift, hs => by
      by_cases hcond : shift.val ≤ pos ∧ p[pos]? ≠ p[pos - shift.val]?
      · rw [tblLoop, dif_pos hcond]
        have hguard : ¬ ((pos - shift.val) < p.length ∧ p[pos - shift.val]? = some cp) := by
          rintro ⟨-, hp⟩
          exact hcond.2 (by rw [hcp, hp])
        by_cases hc0 : pos - shift.val = 0
        · have hsp : shift.val = pos := by omega
          have hent : (tbl.getD (pos - shift.val) 1).val = 1 := by
            rw [hc0]
            exact ht0
          have hadd : (shift + tbl.getD (pos - shift.val) 1).val =
              shift.val + (tbl.getD (pos - shift.val) 1).val := rfl
          have harg : (shift + tbl.getD (pos - shift.val) 1).val = pos + 1 := by omega
          rw [descSpec, if_neg hguard, if_pos hc0]
          rw [tblLoop, dif_neg (by
            rintro ⟨hle, -⟩
            omega)]
          rw [harg]
          omega
        · have h1c : 1 ≤ pos - shift.val := by omega
          have htc := ht (pos - shift.val) h1c (by omega)
          have hBlt : bd (p.take (pos - shift.val)) < pos - shift.val := by
            have hq := bd_lt (take_ne_nil_of_pos h1c
              (show pos - shift.val ≤ p.length by omega))
            rw [length_take_of_le (show pos - shift.val ≤ p.length by omega)] at hq
            exact hq
          have hadd : (shift + tbl.getD (pos - shift.val) 1).val =
              shift.val + (tbl.getD (pos - shift.val) 1).val := rfl
          have harg : (shift + tbl.getD (pos - shift.val) 1).val =
              pos - bd (p.take (pos - shift.val)) := by omega
          have hsle : (shift + tbl.getD (pos - shift.val) 1).val ≤ pos := by omega
          rw [descSpec, if_neg hguard, if_neg hc0]
          have hrec := tblLoop_eq p tbl pos cp hpos hcp ht ht0
            (shift + tbl.getD (pos - shift.val) 1) hsle
          have hcand : pos - (shift + tbl.getD (pos - shift.val) 1).val =
              bd (p.take (pos - shift.val)) := by omega
          rw [hcand] at hrec
          exact hrec
      · rw [tblLoop, dif_neg hcond]
        have heq : p[pos - shift.val]? = some cp := by
          have hB : ¬ p[pos]? ≠ p[pos - shift.val]? := fun hne => hcond ⟨hs, hne⟩
          push_neg at hB
          rw [← hB]
          exact hcp
        rw [descSpec, if_pos ⟨by omega, heq⟩]
        omega
termination_by shift => pos + 1 - shift.val
decreasing_by
  have h1 : 1 ≤ (tbl.getD (pos - shift.val) 1).val := (tbl.getD (pos - shift.val) 1).2
  have hadd : (shift + tbl.getD (pos - shift.val) 1).val =
      shift.val + (tbl.getD (pos - shift.val) 1).val := rfl
  omega

theorem kmpShiftsAux_spec (p : List α) :
    ∀ pos : Nat, pos ≤ p.length →
      (kmpShiftsAux p pos).1.length = p.length + 1 ∧
      ((kmpShiftsAux p pos).1.getD 0 1).val = 1 ∧
      (∀ i, 1 ≤ i → i ≤ pos → ((kmpShiftsAux p pos).1.getD i 1).val = i - bd (p.take i)) ∧
      (∀ i, pos < i → ((kmpShiftsAux p pos).1.getD i 1).val = 1) ∧
      ((kmpShiftsAux p pos).2.val = if pos = 0 then 1 else pos - bd (p.take pos))
  | 0, hp => by
      have hrep : ∀ i : Nat, ((List.replicate (p.length + 1) (1 : ℕ+)).getD i 1).val = 1 := by
        intro i
        rw [List.getD_eq_getElem?_getD, List.getElem?_replicate]
        by_cases hi : i < p.length + 1
        · rw [if_pos hi]
          rfl
        · rw [if_neg hi]
          rfl
      refine ⟨by simp [kmpShiftsAux], hrep 0, ?_, fun i _ => hrep i, by simp [kmpShiftsAux]⟩
      intro i h1 h2
      omega
  | pos + 1, hp => by
      obtain ⟨ihlen, ih0, ihlo, ihhi, ihsh⟩ := kmpShiftsAux_spec p pos (by omega)
      have hposlt : pos < p.length := by omega
      obtain ⟨cp, hcp⟩ : ∃ cp, p[pos]? = some cp :=
        ⟨p[pos], List.getElem?_eq_some_iff.mpr ⟨hposlt, rfl⟩⟩
      have hshv : (tblLoop p (kmpShiftsAux p pos).1 pos (kmpShiftsAux p pos).2).val =
          (pos + 1) - bd (p.take (pos + 1)) := by
        by_cases hz : pos = 0
        · subst hz
          have hv : (kmpShiftsAux p 0).2.val = 1 := by
            rw [ihsh]
            rfl
          rw [tblLoop, dif_neg (by
            rintro ⟨hle, -⟩
            omega)]
          rw [hv, bd_take_one]
        · have hshval : (kmpShiftsAux p pos).2.val = pos - bd (p.take pos) := by
            rw [ihsh, if_neg hz]
          have hBlt : bd (p.take pos) < pos := by
            have hq := bd_lt (take_ne_nil_of_pos (show 1 ≤ pos by omega)
              (show pos ≤ p.length by omega))
            rw [length_take_of_le (show pos ≤ p.length by omega)] at hq
            exact hq
          have hle : (kmpShiftsAux p pos).2.val ≤ pos := by omega
          have h := tblLoop_eq p (kmpShiftsAux p pos).1 pos cp hposlt hcp ihlo ih0
            (kmpShiftsAux p pos).2 hle
          have hcand : pos - (kmpShiftsAux p pos).2.val = bd (p.take pos) := by omega
          rw [hcand] at h
          have hbds := bd_take_succ p pos cp (by omega) hposlt hcp
          have hbdlt : bd (p.take (pos + 1)) < pos + 1 := by
            have hq := bd_lt (take_ne_nil_of_pos (show 1 ≤ pos + 1 by omega)
              (show pos + 1 ≤ p.length by omega))
            rw [length_take_of_le (show pos + 1 ≤ p.length by omega)] at hq
            exact hq
          omega
      have hlen' : ((kmpShiftsAux p pos).1.set (pos + 1)
          (tblLoop p (kmpShiftsAux p pos).1 pos (kmpShiftsAux p pos).2)).length =
          p.length + 1 := by
        rw [List.length_set]
        exact ihlen
      have hget_ne : ∀ i, i ≠ pos + 1 →
          (((kmpShiftsAux p pos).1.set (pos + 1)
            (tblLoop p (kmpShiftsAux p pos).1 pos (kmpShiftsAux p pos).2)).getD i 1) =
            ((kmpShiftsAux p pos).1.getD i 1) := by
        intro i hi
        rw [List.getD_eq_getElem?_getD, List.getD_eq_getElem?_getD,
          List.getElem?_set_ne (fun h => hi h.symm)]
      have hget_eq :
          (((kmpShiftsAux p pos).1.set (pos + 1)
            (tblLoop p (kmpShiftsAux p pos).1 pos (kmpShiftsAux p pos).2)).getD (pos + 1) 1) =
            tblLoop p (kmpShiftsAux p pos).1 pos (kmpShiftsAux p pos).2 := by
        rw [List.getD_eq_getElem?_getD, List.getElem?_set_self (by rw [ihlen]; omega)]
        rfl
      refine ⟨?_, ?_, ?_, ?_, ?_⟩
      · show ((kmpShiftsAux p pos).1.set (pos + 1) _).length = p.length + 1
        exact hlen'
      · show (((kmpShiftsAux p pos).1.set (pos + 1) _).getD 0 1).val = 1
        rw [hget_ne 0 (by omega)]
        exact ih0
      · intro i h1 h2
        show (((kmpShiftsAux p pos).1.set (pos + 1) _).getD i 1).val = i - bd (p.take i)
        by_cases hi : i = pos + 1
        · subst hi
          rw [hget_eq]
          exact hshv
        · rw [hget_ne i hi]
          exact ihlo i h1 (by omega)
      · intro i hi
        show (((kmpShiftsAux p pos).1.set (pos + 1) _).getD i 1).val = 1
        rw [hget_ne i (by omega)]
        exact ihhi i (by omega)
      · show (tblLoop p (kmpShiftsAux p pos).1 pos (kmpShiftsAux p pos).2).val =
          if pos + 1 = 0 then 1 else (pos + 1) - bd (p.take (pos + 1))
        rw [if_neg (by omega)]
        exact hshv

theorem kmpShifts_spec (p : List α) :
    (kmpShifts p).length = p.length + 1 ∧
    ((kmpShifts p).getD 0 1).val = 1 ∧
    (∀ i, 1 ≤ i → i ≤ p.length → ((kmpShifts p).getD i 1).val = i - bd (p.take i)) := by
  obtain ⟨h1, h2, h3, -, -⟩ := kmpShiftsAux_spec p p.length (Nat.le_refl _)
  exact ⟨h1, h2, h3⟩

/-! ### Candidate match lengths while scanning the text -/

theorem pss_zero (t p : List α) (k : Nat) : pss t p k 0 :=
  ⟨Nat.zero_le _, Nat.zero_le _, by rw [endSeg_zero]; rfl⟩

theorem longMatch_spec (t p : List α) (k : Nat) : pss t p k (longMatch t p k) :=
  Nat.findGreatest_spec (Nat.zero_le _) (pss_zero t p k)

theorem longMatch_le (t p : List α) (k : Nat) : longMatch t p k ≤ min k p.length :=
  Nat.findGreatest_le _

theorem pss_le {t p : List α} {k l : Nat} (h : pss t p k l) : l ≤ longMatch t p k :=
  Nat.le_findGreatest (by have := h.1; have := h.2.1; omega) h

theorem pss_le_seg {t p : List α} {k l : Nat} (h : pss t p k l) :
    l ≤ (t.take k).length := by
  have hc := congrArg List.length h.2.2
  rw [List.length_take] at hc
  rw [show (endSeg (t.take k) l).length = (t.take k).length - ((t.take k).length - l) from by
    simp [endSeg]] at hc
  rw [List.length_take] at hc ⊢
  have := h.1
  omega

theorem pss_down {t p : List α} {k l l' : Nat} (hl : pss t p k l) (hl' : pss t p k l')
    (hll : l < l') : IsBd (p.take l') l := by
  have hseg := pss_le_seg hl'
  constructor
  · rw [length_take_of_le hl'.1]
    exact hll
  · rw [List.take_take, show min l l' = l from by omega, hl.2.2]
    conv_rhs => rw [hl'.2.2]
    exact (endSeg_endSeg (by omega) hseg).symm

theorem pss_up {t p : List α} {k l l' : Nat} (hl' : pss t p k l') (hl : IsBd (p.take l') l) :
    pss t p k l := by
  have hll : l < l' := by
    have := hl.1
    rw [length_take_of_le hl'.1] at this
    exact this
  have hseg := pss_le_seg hl'
  refine ⟨by have := hl'.1; omega, by have := hl'.2.1; omega, ?_⟩
  have h1 : (p.take l').take l = p.take l := by
    rw [List.take_take]
    congr 1
    omega
  have h2 := hl.2
  rw [h1, hl'.2.2] at h2
  rw [h2]
  exact endSeg_endSeg (by omega) hseg

theorem pss_iff_satBd (t p : List α) (k l : Nat) :
    pss t p k l ↔ satBd p (longMatch t p k) l := by
  constructor
  · intro h
    have hle := pss_le h
    rcases Nat.eq_or_lt_of_le hle with heq | hlt
    · exact Or.inl heq
    · exact Or.inr (pss_down h (longMatch_spec t p k) hlt)
  · rintro (rfl | hbd)
    · exact longMatch_spec t p k
    · exact pss_up (longMatch_spec t p k) hbd

theorem pss_succ_iff {t p : List α} {c : α} {k l : Nat} (hk : k < t.length)
    (hc : t[k]? = some c) :
    pss t p (k + 1) (l + 1) ↔ (pss t p k l ∧ l < p.length ∧ p[l]? = some c) := by
  have htake : t.take (k + 1) = t.take k ++ [c] := by
    rw [List.take_succ, hc]
    rfl
  have hlenk : (t.take k).length = k := by
    rw [List.length_take]
    omega
  constructor
  · rintro ⟨h1, h2, h3⟩
    rw [htake] at h3
    have hres := (seg_ext_iff (by omega) (by rw [hlenk]; omega)).mp h3
    have hlp : l < p.length := by
      rcases List.getElem?_eq_some_iff.mp hres.2 with ⟨hlt, -⟩
      exact hlt
    exact ⟨⟨by omega, by omega, hres.1⟩, hlp, hres.2⟩
  · rintro ⟨⟨h1, h2, h3⟩, hlp, hpl⟩
    refine ⟨by omega, by omega, ?_⟩
    rw [htake]
    exact (seg_ext_iff (by omega) (by rw [hlenk]; omega)).mpr ⟨h3, hpl⟩

theorem longMatch_zero (t p : List α) : longMatch t p 0 = 0 := by
  unfold longMatch
  rw [Nat.zero_min]
  rfl

theorem longMatch_succ {t p : List α} {c : α} {k : Nat} (hk : k < t.length)
    (hc : t[k]? = some c) :
    (longMatch t p (k + 1) : Int) = descSpec p c (longMatch t p k) + 1 := by
  have hMle := longMatch_le t p k
  obtain ⟨h1', h2', h3'⟩ := descSpec_max p c (longMatch t p k) (by omega)
  rcases h3' with hneg | ⟨d, hd⟩
  · rw [hneg]
    have hz : longMatch t p (k + 1) = 0 := by
      rw [longMatch, Nat.findGreatest_eq_iff]
      refine ⟨Nat.zero_le _, fun h => absurd rfl h, ?_⟩
      intro n hn hnb hpss
      obtain ⟨l, rfl⟩ : ∃ l, n = l + 1 := ⟨n - 1, by omega⟩
      obtain ⟨hpk, hlp, hpl⟩ := (pss_succ_iff hk hc).mp hpss
      have := h1' l ((pss_iff_satBd t p k l).mp hpk) hlp hpl
      rw [hneg] at this
      omega
    rw [hz]
    omega
  · rw [hd]
    obtain ⟨hsat, hdlen, hdc⟩ := h2' d hd
    have hdle : d ≤ longMatch t p k := by
      rcases hsat with rfl | hbd
      · exact Nat.le_refl _
      · have := hbd.1
        rw [List.length_take] at this
        omega
    have heq : longMatch t p (k + 1) = d + 1 := by
      rw [longMatch, Nat.findGreatest_eq_iff]
      refine ⟨by omega, fun h => ?_, ?_⟩
      · exact (pss_succ_iff hk hc).mpr ⟨(pss_iff_satBd t p k d).mpr hsat, hdlen, hdc⟩
      · intro n hn hnb hpss
        obtain ⟨l, rfl⟩ : ∃ l, n = l + 1 := ⟨n - 1, by omega⟩
        obtain ⟨hpk, hlp, hpl⟩ := (pss_succ_iff hk hc).mp hpss
        have := h1' l ((pss_iff_satBd t p k l).mp hpk) hlp hpl
        rw [hd] at this
        omega
    rw [heq]
    omega

theorem longMatch_succ_le {t p : List α} {k : Nat} (hk : k < t.length) :
    longMatch t p (k + 1) ≤ longMatch t p k + 1 := by
  obtain ⟨c, hc⟩ : ∃ c, t[k]? = some c :=
    ⟨t[k], List.getElem?_eq_some_iff.mpr ⟨hk, rfl⟩⟩
  have h := longMatch_succ (p := p) hk hc
  have h2 := descSpec_le_self p c (longMatch t p k) (by have := longMatch_le t p k; omega)
  omega

/-! ### The search loop computes the border-chain descent -/

theorem srchLoop_eq (p : List α) (tbl : List ℕ+) (c : α)
    (ht0 : (tbl.getD 0 1).val = 1)
    (ht : ∀ i, 1 ≤ i → i ≤ p.length → (tbl.getD i 1).val = i - bd (p.take i)) :
    ∀ ml : Nat, ml ≤ p.length → ∀ sp : Nat,
      srchLoop p tbl c sp (ml : Int) =
        (sp + ((ml : Int) - descSpec p c ml).toNat, descSpec p c ml)
  | ml, hml, sp => by
      by_cases hcond : (ml : Int) = (p.length : Int) ∨
          (0 ≤ (ml : Int) ∧ p[((ml : Int)).toNat]? ≠ some c)
      · rw [srchLoop, dif_pos hcond]
        have htoNat : ((ml : Int)).toNat = ml := by omega
        have hguard : ¬ (ml < p.length ∧ p[ml]? = some c) := by
          rintro ⟨hlt, heq⟩
          rcases hcond with h | h
          · omega
          · rw [htoNat] at h
            exact h.2 heq
        rw [descSpec, if_neg hguard]
        by_cases hml0 : ml = 0
        · subst hml0
          have hent : (tbl.getD (((0 : Nat) : Int)).toNat 1).val = 1 := by
            simpa using ht0
          have hev : (((0 : Nat) : Int) -
              ((tbl.getD (((0 : Nat) : Int)).toNat 1).val : Int)) = -1 := by
            rw [hent]
            omega
          rw [if_pos rfl]
          rw [srchLoop, dif_neg (by
            rw [hev]
            rintro (h | h)
            · omega
            · exact absurd h.1 (by omega))]
          rw [hev, hent]
          rw [Prod.mk.injEq]
          refine ⟨by omega, rfl⟩
        · rw [if_neg hml0]
          have h1ml : 1 ≤ ml := by omega
          have hBlt : bd (p.take ml) < ml := by
            have hq := bd_lt (take_ne_nil_of_pos h1ml hml)
            rw [length_take_of_le hml] at hq
            exact hq
          have hent : (tbl.getD ((ml : Int)).toNat 1).val = ml - bd (p.take ml) := by
            rw [htoNat]
            exact ht ml h1ml hml
          have harg2 : (ml : Int) - ((tbl.getD ((ml : Int)).toNat 1).val : Int) =
              ((bd (p.take ml) : Nat) : Int) := by
            rw [hent]
            omega
          rw [harg2]
          rw [srchLoop_eq p tbl c ht0 ht (bd (p.take ml)) (by omega)
            (sp + (tbl.getD ((ml : Int)).toNat 1).val)]
          have hdle := descSpec_le_self p c (bd (p.take ml)) (by omega)
          congr 1
          rw [hent]
          omega
      · rw [srchLoop, dif_neg hcond]
        push_neg at hcond
        have hmlne : ml ≠ p.length := fun h => hcond.1 (by rw [h])
        have heq : p[ml]? = some c := by
          have h := hcond.2 (by omega)
          rwa [show ((ml : Int)).toNat = ml by omega] at h
        rw [descSpec, if_pos ⟨by omega, heq⟩]
        have hz : ((ml : Int) - (ml : Int)).toNat = 0 := by omega
        rw [hz, Nat.add_zero]
termination_by ml => ml
decreasing_by
  have hq := bd_lt (take_ne_nil_of_pos h1ml hml)
  rw [length_take_of_le hml] at hq
  exact hq

theorem srchRun_spec (t p : List α) (tbl : List ℕ+)
    (ht0 : (tbl.getD 0 1).val = 1)
    (ht : ∀ i, 1 ≤ i → i ≤ p.length → (tbl.getD i 1).val = i - bd (p.take i)) :
    ∀ (j k : Nat), k + j = t.length →
      srchRun p tbl (t.drop k) (k - longMatch t p k) ((longMatch t p k : Int)) =
        ((List.range' (k + 1) j).filter
          (fun i => decide (longMatch t p i = p.length))).map (fun i => i - p.length)
  | 0, k, hk => by
      have hnil : t.drop k = [] := List.drop_eq_nil_of_le (by omega)
      rw [hnil]
      rfl
  | j + 1, k, hk => by
      have hklt : k < t.length := by omega
      obtain ⟨c, hc⟩ : ∃ c, t[k]? = some c :=
        ⟨t[k], List.getElem?_eq_some_iff.mpr ⟨hklt, rfl⟩⟩
      have hdrop : t.drop k = c :: t.drop (k + 1) := by
        rw [List.drop_eq_getElem_cons hklt]
        have hcv : t[k] = c :=
          Option.some_inj.mp ((List.getElem?_eq_getElem hklt).symm.trans hc)
        rw [hcv]
      rw [hdrop]
      have hMle : longMatch t p k ≤ p.length := by
        have := longMatch_le t p k
        omega
      have hMk_le : longMatch t p k ≤ k := by
        have := longMatch_le t p k
        omega
      simp only [srchRun]
      rw [srchLoop_eq p tbl c ht0 ht (longMatch t p k) hMle (k - longMatch t p k)]
      have hM1 := longMatch_succ (p := p) hklt hc
      have hdle := descSpec_le_self p c (longMatch t p k) hMle
      have hM1le : longMatch t p (k + 1) ≤ k + 1 := by
        have := longMatch_le t p (k + 1)
        omega
      have hq1 : (k - longMatch t p k) +
          (((longMatch t p k : Nat) : Int) - descSpec p c (longMatch t p k)).toNat =
          (k + 1) - longMatch t p (k + 1) := by
        omega
      have hq2 : descSpec p c (longMatch t p k) + 1 = ((longMatch t p (k + 1) : Nat) : Int) := by
        omega
      rw [hq1, hq2]
      have hrange : List.range' (k + 1) (j + 1) = (k + 1) :: List.range' (k + 2) j := by
        rw [List.range'_succ]
      rw [hrange]
      rw [List.filter_cons]
      by_cases hyield : longMatch t p (k + 1) = p.length
      · rw [if_pos (show ((longMatch t p (k + 1) : Nat) : Int) = ((p.length : Nat) : Int) from
          by exact_mod_cast hyield)]
        rw [if_pos (show decide (longMatch t p (k + 1) = p.length) = true from
          by simpa using hyield)]
        rw [List.map_cons, List.singleton_append]
        congr 1
        · rw [hyield]
        · exact srchRun_spec t p tbl ht0 ht j (k + 1) (by omega)
      · rw [if_neg (show ¬ ((longMatch t p (k + 1) : Nat) : Int) = ((p.length : Nat) : Int) from
          fun hcast => hyield (by exact_mod_cast hcast))]
        rw [if_neg (show ¬ decide (longMatch t p (k + 1) = p.length) = true from
          by simpa using hyield)]
        rw [List.nil_append]
        exact srchRun_spec t p tbl ht0 ht j (k + 1) (by omega)

theorem kmpMatches_eq (t p : List α) :
    kmpMatches t p =
      ((List.range' 1 t.length).filter
        (fun i => decide (longMatch t p i = p.length))).map (fun i => i - p.length) := by
  obtain ⟨-, ht0, ht⟩ := kmpShifts_spec p
  have h := srchRun_spec t p (kmpShifts p) ht0 ht t.length 0 (by omega)
  rw [List.drop_zero, longMatch_zero] at h
  simpa [kmpMatches] using h

theorem longMatch_nil (t : List α) (k : Nat) : longMatch t ([] : List α) k = 0 := by
  unfold longMatch
  simp only [List.length_nil, Nat.min_zero]
  rfl

theorem kmp_nil_pat (t : List α) : kmpMatches t ([] : List α) = List.range' 1 t.length := by
  rw [kmpMatches_eq]
  rw [List.filter_eq_self.mpr (fun a _ => by rw [longMatch_nil]; simp)]
  simp

/-- C2 (amended): the matcher run with the empty (identity) pattern does
yield positions — one per consumed text token, namely 1, 2, ..., len(text),
which are not occurrence positions of the empty pattern; containment of the
identity element is nevertheless decided by the wrapper's `__contains__`,
which returns True for the empty needle before ever invoking the
matcher. -/
theorem C2_empty_pattern (text : List α) :
    kmpMatches text ([] : List α) = List.range' 1 text.length ∧
      slContains text ([] : List α) = true :=
  ⟨kmp_nil_pat text, by rw [slContains, if_pos rfl]⟩

/-- C2 counterexample to the claim as stated: on the one-token text "a" the
matcher with the empty pattern yields the position 1, not no positions at
all. -/
theorem C2_counterexample :
    kmpMatches ['a'] ([] : List Char) = [1] ∧ ([1] : List Nat) ≠ [] := by
  refine ⟨?_, by simp⟩
  rw [kmp_nil_pat]
  rfl

theorem C2_witness :
    kmpMatches ['a', 'b'] ([] : List Char) = List.range' 1 2 ∧
      slContains ['a', 'b'] ([] : List Char) = true := by
  simpa using C2_empty_pattern ['a', 'b']

/-! ### Occurrence positions (C6) -/

theorem endSeg_take_eq_drop_take (t : List α) (i m : Nat) (h : i + m ≤ t.length) :
    endSeg (t.take (i + m)) m = (t.drop i).take m := by
  rw [endSeg, length_take_of_le h, show i + m - m = i from by omega, List.drop_take,
    show i + m - i = m from by omega]

theorem occAt_iff_longMatch (t p : List α) (i : Nat) :
    occAt t p i ↔ (i + p.length ≤ t.length ∧ longMatch t p (i + p.length) = p.length) := by
  constructor
  · rintro ⟨hle, heq⟩
    refine ⟨hle, ?_⟩
    have hpss : pss t p (i + p.length) p.length :=
      ⟨Nat.le_refl _, by omega,
        by rw [List.take_length, endSeg_take_eq_drop_take t i p.length hle, heq]⟩
    have h1 := pss_le hpss
    have h2 := longMatch_le t p (i + p.length)
    omega
  · rintro ⟨hle, hM⟩
    have hpss := longMatch_spec t p (i + p.length)
    rw [hM] at hpss
    refine ⟨hle, ?_⟩
    have h := hpss.2.2
    rw [List.take_length, endSeg_take_eq_drop_take t i p.length hle] at h
    exact h.symm

theorem mem_kmp_iff (t p : List α) (hp : p ≠ []) (x : Nat) :
    x ∈ kmpMatches t p ↔ occAt t p x := by
  rw [kmpMatches_eq]
  have hm1 : 1 ≤ p.length := List.length_pos.mpr hp
  simp only [List.mem_map, List.mem_filter, List.mem_range', decide_eq_true_eq]
  constructor
  · rintro ⟨j, ⟨⟨idx, hidx, hj⟩, hMj⟩, rfl⟩
    have hmle := longMatch_le t p j
    have hmj : p.length ≤ j := by
      rw [hMj] at hmle
      omega
    rw [occAt_iff_longMatch]
    refine ⟨by omega, ?_⟩
    rw [show j - p.length + p.length = j from by omega]
    exact hMj
  · intro hocc
    rw [occAt_iff_longMatch] at hocc
    refine ⟨x + p.length, ⟨⟨x + p.length - 1, by omega, by omega⟩, hocc.2⟩, by omega⟩

theorem mem_occList_iff (t p : List α) (x : Nat) :
    x ∈ occList t p ↔ occAt t p x := by
  rw [occList]
  simp only [List.mem_filter, List.mem_range, decide_eq_true_eq]
  constructor
  · rintro ⟨-, h⟩
    exact h
  · intro h
    have := h.1
    exact ⟨by omega, h⟩

theorem kmp_pairwise (t p : List α) (hp : p ≠ []) :
    (kmpMatches t p).Pairwise (· < ·) := by
  rw [kmpMatches_eq, List.pairwise_map]
  have hs := List.Pairwise.sublist
    (List.filter_sublist (p := fun i => decide (longMatch t p i = p.length))
      (List.range' 1 t.length))
    (List.pairwise_lt_range' 1 t.length 1)
  refine hs.imp_of_mem ?_
  intro a b ha hb hab
  rw [List.mem_filter, decide_eq_true_eq] at ha
  have hmle := longMatch_le t p a
  rw [ha.2] at hmle
  omega

theorem occList_pairwise (t p : List α) : (occList t p).Pairwise (· < ·) :=
  List.Pairwise.sublist (List.filter_sublist _) (List.pairwise_lt_range _)

theorem eq_of_pairwise_lt_mem_iff :
    ∀ (l₁ l₂ : List Nat), l₁.Pairwise (· < ·) → l₂.Pairwise (· < ·) →
      (∀ x, x ∈ l₁ ↔ x ∈ l₂) → l₁ = l₂
  | [], [], _, _, _ => rfl
  | [], b :: l₂, _, _, h => absurd ((h b).mpr (List.mem_cons_self b l₂)) (List.not_mem_nil b)
  | a :: l₁, [], _, _, h => absurd ((h a).mp (List.mem_cons_self a l₁)) (List.not_mem_nil a)
  | a :: l₁, b :: l₂, h1, h2, h => by
      have hp1 := List.pairwise_cons.mp h1
      have hp2 := List.pairwise_cons.mp h2
      have hab : a = b := by
        rcases List.mem_cons.mp ((h a).mp (List.mem_cons_self a l₁)) with h' | h'
        · exact h'
        · have hba : b < a := hp2.1 a h'
          rcases List.mem_cons.mp ((h b).mpr (List.mem_cons_self b l₂)) with h'' | h''
          · omega
          · have : a < b := hp1.1 b h''
            omega
      subst hab
      congr 1
      refine eq_of_pairwise_lt_mem_iff l₁ l₂ hp1.2 hp2.2 ?_
      intro x
      constructor
      · intro hx
        have hax : a < x := hp1.1 x hx
        rcases List.mem_cons.mp ((h x).mp (List.mem_cons_of_mem a hx)) with h' | h'
        · omega
        · exact h'
      · intro hx
        have hax : a < x := hp2.1 x hx
        rcases List.mem_cons.mp ((h x).mpr (List.mem_cons_of_mem a hx)) with h' | h'
        · omega
        · exact h'

/-- C6 (amended): for every nonempty pattern, the matcher yields exactly
the 0-based starting positions at which the pattern occurs as a contiguous
sub-sequence of the text, in strictly increasing order, overlapping
occurrences included (in particular "ana" in "banana" yields 1 and 3: see
the witness). For the empty pattern the claim fails (see the
counterexample): the code yields the spurious positions 1..len(text)
rather than the occurrence positions 0..len(text). -/
theorem C6_kmp_occurrences (text pat : List α) (h : pat ≠ []) :
    kmpMatches text pat = occList text pat := by
  refine eq_of_pairwise_lt_mem_iff _ _ (kmp_pairwise text pat h)
    (occList_pairwise text pat) ?_
  intro x
  rw [mem_kmp_iff text pat h, mem_occList_iff]

/-- C6 counterexample to the claim as stated (which quantifies over every
pattern): with the empty pattern and empty text there is an occurrence at
position 0, but the matcher yields nothing. -/
theorem C6_counterexample :
    kmpMatches ([] : List Char) [] = [] ∧ occList ([] : List Char) [] = [0] :=
  ⟨rfl, by decide⟩

theorem C6_witness :
    kmpMatches ['b', 'a', 'n', 'a', 'n', 'a'] ['a', 'n', 'a'] =
        occList ['b', 'a', 'n', 'a', 'n', 'a'] ['a', 'n', 'a'] ∧
      occList ['b', 'a', 'n', 'a', 'n', 'a'] ['a', 'n', 'a'] = [1, 3] :=
  ⟨C6_kmp_occurrences ['b', 'a', 'n', 'a', 'n', 'a'] ['a', 'n', 'a'] (by decide), by decide⟩

/-! ### Comparison counting (C9) -/

theorem cmpCost_le (p : List α) (ml : Int) : cmpCost p ml ≤ 1 := by
  rw [cmpCost]
  split
  · omega
  · split <;> omega

theorem tblLoopC_fuel (p : List α) (tbl : List ℕ+) (pos : Nat) :
    ∀ (fuel : Nat) (shift : ℕ+), pos + 1 - shift.val ≤ fuel →
      (tblLoopC p tbl pos shift).1 = tblLoop p tbl pos shift ∧
      shift.val ≤ (tblLoopC p tbl pos shift).1.val ∧
      (tblLoopC p tbl pos shift).2 ≤ ((tblLoopC p tbl pos shift).1.val - shift.val) + 1 := by
  intro fuel
  induction fuel with
  | zero =>
      intro shift hf
      have hcond : ¬ (shift.val ≤ pos ∧ p[pos]? ≠ p[pos - shift.val]?) := by
        rintro ⟨h, -⟩
        omega
      have hEq : tblLoopC p tbl pos shift =
          (shift, if shift.val ≤ pos then 1 else 0) := by
        rw [tblLoopC, dif_neg hcond]
      have hEqL : tblLoop p tbl pos shift = shift := by
        rw [tblLoop, dif_neg hcond]
      rw [hEq, hEqL]
      dsimp only
      refine ⟨rfl, Nat.le_refl _, ?_⟩
      split <;> omega
  | succ fuel ih =>
      intro shift hf
      by_cases hcond : shift.val ≤ pos ∧ p[pos]? ≠ p[pos - shift.val]?
      · have he : 1 ≤ (tbl.getD (pos - shift.val) 1).val := (tbl.getD (pos - shift.val) 1).2
        have hadd : (shift + tbl.getD (pos - shift.val) 1).val =
            shift.val + (tbl.getD (pos - shift.val) 1).val := rfl
        obtain ⟨ih1, ih2, ih3⟩ := ih (shift + tbl.getD (pos - shift.val) 1) (by
          rw [hadd]
          have := hcond.1
          omega)
        have hEq : tblLoopC p tbl pos shift =
            ((tblLoopC p tbl pos (shift + tbl.getD (pos - shift.val) 1)).1,
              (tblLoopC p tbl pos (shift + tbl.getD (pos - shift.val) 1)).2 + 1) := by
          rw [tblLoopC, dif_pos hcond]
        have hEqL : tblLoop p tbl pos shift =
            tblLoop p tbl pos (shift + tbl.getD (pos - shift.val) 1) := by
          rw [tblLoop, dif_pos hcond]
        rw [hEq, hEqL]
        dsimp only
        exact ⟨ih1, by omega, by omega⟩
      · have hEq : tblLoopC p tbl pos shift =
            (shift, if shift.val ≤ pos then 1 else 0) := by
          rw [tblLoopC, dif_neg hcond]
        have hEqL : tblLoop p tbl pos shift = shift := by
          rw [tblLoop, dif_neg hcond]
        rw [hEq, hEqL]
        dsimp only
        refine ⟨rfl, Nat.le_refl _, ?_⟩
        split <;> omega

theorem tblLoopC_spec (p : List α) (tbl : List ℕ+) (pos : Nat) (shift : ℕ+) :
    (tblLoopC p tbl pos shift).1 = tblLoop p tbl pos shift ∧
    shift.val ≤ (tblLoopC p tbl pos shift).1.val ∧
    (tblLoopC p tbl pos shift).2 ≤ ((tblLoopC p tbl pos shift).1.val - shift.val) + 1 :=
  tblLoopC_fuel p tbl pos (pos + 1 - shift.val) shift (Nat.le_refl _)

theorem kmpShiftsAuxC_spec (p : List α) :
    ∀ pos : Nat,
      (kmpShiftsAuxC p pos).1 = (kmpShiftsAux p pos).1 ∧
      (kmpShiftsAuxC p pos).2.1 = (kmpShiftsAux p pos).2 ∧
      (kmpShiftsAuxC p pos).2.2 + 1 ≤ (kmpShiftsAux p pos).2.val + pos
  | 0 => ⟨rfl, rfl, by simp [kmpShiftsAuxC, kmpShiftsAux]⟩
  | pos + 1 => by
      obtain ⟨ih1, ih2, ih3⟩ := kmpShiftsAuxC_spec p pos
      obtain ⟨hl1, hl2, hl3⟩ := tblLoopC_spec p (kmpShiftsAux p pos).1 pos (kmpShiftsAux p pos).2
      simp only [kmpShiftsAuxC, kmpShiftsAux]
      rw [ih1, ih2, hl1]
      refine ⟨rfl, rfl, ?_⟩
      rw [hl1] at hl2 hl3
      omega

theorem srchLoopC_fuel (p : List α) (tbl : List ℕ+) (c : α) :
    ∀ (fuel : Nat) (ml : Int) (sp : Nat), (ml + 1).toNat ≤ fuel →
      (srchLoopC p tbl c sp ml).1 = (srchLoop p tbl c sp ml).1 ∧
      (srchLoopC p tbl c sp ml).2.1 = (srchLoop p tbl c sp ml).2 ∧
      sp ≤ (srchLoopC p tbl c sp ml).1 ∧
      (srchLoopC p tbl c sp ml).2.2 ≤ ((srchLoopC p tbl c sp ml).1 - sp) + 1 := by
  intro fuel
  induction fuel with
  | zero =>
      intro ml sp hf
      have hcond : ¬ (ml = (p.length : Int) ∨ (0 ≤ ml ∧ p[ml.toNat]? ≠ some c)) := by
        rintro (h | h)
        · rw [h] at hf
          omega
        · have := h.1
          omega
      have hEq : srchLoopC p tbl c sp ml = (sp, ml, cmpCost p ml) := by
        rw [srchLoopC, dif_neg hcond]
      have hEqL : srchLoop p tbl c sp ml = (sp, ml) := by
        rw [srchLoop, dif_neg hcond]
      rw [hEq, hEqL]
      dsimp only
      have hcost := cmpCost_le p ml
      exact ⟨rfl, rfl, Nat.le_refl _, by omega⟩
  | succ fuel ih =>
      intro ml sp hf
      by_cases hcond : ml = (p.length : Int) ∨ (0 ≤ ml ∧ p[ml.toNat]? ≠ some c)
      · have he : 1 ≤ (tbl.getD ml.toNat 1).val := (tbl.getD ml.toNat 1).2
        have h0 : 0 ≤ ml := by
          rcases hcond with h | h
          · rw [h]
            exact Int.ofNat_nonneg _
          · exact h.1
        obtain ⟨ih1, ih2, ih3, ih4⟩ := ih (ml - ((tbl.getD ml.toNat 1).val : Int))
          (sp + (tbl.getD ml.toNat 1).val) (by omega)
        have hEq : srchLoopC p tbl c sp ml =
            ((srchLoopC p tbl c (sp + (tbl.getD ml.toNat 1).val)
                (ml - ((tbl.getD ml.toNat 1).val : Int))).1,
              (srchLoopC p tbl c (sp + (tbl.getD ml.toNat 1).val)
                (ml - ((tbl.getD ml.toNat 1).val : Int))).2.1,
              (srchLoopC p tbl c (sp + (tbl.getD ml.toNat 1).val)
                (ml - ((tbl.getD ml.toNat 1).val : Int))).2.2 + cmpCost p ml) := by
          rw [srchLoopC, dif_pos hcond]
        have hEqL : srchLoop p tbl c sp ml =
            srchLoop p tbl c (sp + (tbl.getD ml.toNat 1).val)
              (ml - ((tbl.getD ml.toNat 1).val : Int)) := by
          rw [srchLoop, dif_pos hcond]
        rw [hEq, hEqL]
        dsimp only
        have hcost := cmpCost_le p ml
        exact ⟨ih1, ih2, by omega, by omega⟩
      · have hEq : srchLoopC p tbl c sp ml = (sp, ml, cmpCost p ml) := by
          rw [srchLoopC, dif_neg hcond]
        have hEqL : srchLoop p tbl c sp ml = (sp, ml) := by
          rw [srchLoop, dif_neg hcond]
        rw [hEq, hEqL]
        dsimp only
        have hcost := cmpCost_le p ml
        exact ⟨rfl, rfl, Nat.le_refl _, by omega⟩

theorem srchLoopC_spec (p : List α) (tbl : List ℕ+) (c : α) (ml : Int) (sp : Nat) :
    (srchLoopC p tbl c sp ml).1 = (srchLoop p tbl c sp ml).1 ∧
    (srchLoopC p tbl c sp ml).2.1 = (srchLoop p tbl c sp ml).2 ∧
    sp ≤ (srchLoopC p tbl c sp ml).1 ∧
    (srchLoopC p tbl c sp ml).2.2 ≤ ((srchLoopC p tbl c sp ml).1 - sp) + 1 :=
  srchLoopC_fuel p tbl c ((ml + 1).toNat) ml sp (Nat.le_refl _)

theorem sp_mono (t p : List α) :
    ∀ (d k : Nat), k + d ≤ t.length →
      k - longMatch t p k ≤ (k + d) - longMatch t p (k + d)
  | 0, k, h => Nat.le_refl _
  | d + 1, k, h => by
      have ih := sp_mono t p d k (by omega)
      have hassoc : k + (d + 1) = (k + d) + 1 := by omega
      rw [hassoc]
      have hstep := longMatch_succ_le (t := t) (p := p) (k := k + d) (by omega)
      have h1 := longMatch_le t p (k + d)
      have h2 := longMatch_le t p (k + d + 1)
      omega

theorem srchRunC_cnt (t p : List α) (tbl : List ℕ+)
    (ht0 : (tbl.getD 0 1).val = 1)
    (ht : ∀ i, 1 ≤ i → i ≤ p.length → (tbl.getD i 1).val = i - bd (p.take i)) :
    ∀ (j k : Nat), k + j = t.length →
      (srchRunC p tbl (t.drop k) (k - longMatch t p k) ((longMatch t p k : Int))).2 ≤
        ((t.length - longMatch t p t.length) - (k - longMatch t p k)) + j
  | 0, k, hk => by
      have hnil : t.drop k = [] := List.drop_eq_nil_of_le (by omega)
      rw [hnil]
      simp [srchRunC]
  | j + 1, k, hk => by
      have hklt : k < t.length := by omega
      obtain ⟨c, hc⟩ : ∃ c, t[k]? = some c :=
        ⟨t[k], List.getElem?_eq_some_iff.mpr ⟨hklt, rfl⟩⟩
      have hdrop : t.drop k = c :: t.drop (k + 1) := by
        rw [List.drop_eq_getElem_cons hklt]
        have hcv : t[k] = c :=
          Option.some_inj.mp ((List.getElem?_eq_getElem hklt).symm.trans hc)
        rw [hcv]
      rw [hdrop]
      have hMle : longMatch t p k ≤ p.length := by
        have := longMatch_le t p k
        omega
      have hMk_le : longMatch t p k ≤ k := by
        have := longMatch_le t p k
        omega
      simp only [srchRunC]
      obtain ⟨hc1, hc2, hc3, hc4⟩ := srchLoopC_spec p tbl c
        ((longMatch t p k : Int)) (k - longMatch t p k)
      have hloop := srchLoop_eq p tbl c ht0 ht (longMatch t p k) hMle
        (k - longMatch t p k)
      have hM1 := longMatch_succ (p := p) hklt hc
      have hdle := descSpec_le_self p c (longMatch t p k) hMle
      have hM1le : longMatch t p (k + 1) ≤ k + 1 := by
        have := longMatch_le t p (k + 1)
        omega
      have hq1 : (srchLoopC p tbl c (k - longMatch t p k) ((longMatch t p k : Int))).1 =
          (k + 1) - longMatch t p (k + 1) := by
        rw [hc1, hloop]
        omega
      have hq2 : (srchLoopC p tbl c (k - longMatch t p k) ((longMatch t p k : Int))).2.1 + 1 =
          ((longMatch t p (k + 1) : Nat) : Int) := by
        rw [hc2, hloop]
        omega
      rw [hq1, hq2]
      have ih := srchRunC_cnt t p tbl ht0 ht j (k + 1) (by omega)
      have hmono1 : k - longMatch t p k ≤ (k + 1) - longMatch t p (k + 1) := by
        have := sp_mono t p 1 k (by omega)
        rwa [show k + 1 = k + 1 from rfl] at this
      have hmono2 : (k + 1) - longMatch t p (k + 1) ≤
          t.length - longMatch t p t.length := by
        have := sp_mono t p (t.length - (k + 1)) (k + 1) (by omega)
        rwa [show (k + 1) + (t.length - (k + 1)) = t.length from by omega] at this
      rw [hq1] at hc4
      omega

/-- C9: a full run of the matcher (building the shift table from the
pattern alone, then streaming the text once) performs at most
`2 * |pattern| + 2 * |text|` token-equality comparisons, and the shift
table has length `|pattern| + 1`. -/
theorem C9_kmp_linear (text pat : List α) :
    kmpCmpCount text pat ≤ 2 * pat.length + 2 * text.length ∧
      (kmpShifts pat).length = pat.length + 1 := by
  obtain ⟨hlen, ht0, ht⟩ := kmpShifts_spec pat
  refine ⟨?_, hlen⟩
  rw [kmpCmpCount]
  obtain ⟨-, -, htc⟩ := kmpShiftsAuxC_spec pat pat.length
  have htbl_le : (kmpShiftsAux pat pat.length).2.val ≤ pat.length + 1 := by
    obtain ⟨-, -, -, -, hsh⟩ := kmpShiftsAux_spec pat pat.length (Nat.le_refl _)
    by_cases hm : pat.length = 0
    · rw [hsh, if_pos hm]
      omega
    · rw [hsh, if_neg hm]
      omega
  have hs := srchRunC_cnt text pat (kmpShifts pat) ht0 ht text.length 0 (by omega)
  rw [List.drop_zero, longMatch_zero] at hs
  simp only [Nat.sub_self, Nat.cast_zero, Nat.sub_zero] at hs
  have hM_le := longMatch_le text pat text.length
  omega

theorem C9_witness :
    kmpCmpCount ['b', 'a', 'n', 'a', 'n', 'a'] ['a', 'n', 'a'] ≤ 2 * 3 + 2 * 6 ∧
      (kmpShifts ['a', 'n', 'a']).length = 3 + 1 := by
  simpa using C9_kmp_linear ['b', 'a', 'n', 'a', 'n', 'a'] ['a', 'n', 'a']

end Mytrie
